import Mathlib

/-!
Verification of the FlowStudio execution core (flow_execution_engine.py and
flow_api_gateway.py) against its natural-language specification.

The Python code is shallowly embedded: JSON-like values become the inductive
type Value, Python dicts become insertion-ordered association lists whose
update semantics (replace-in-place or append) mirror CPython, Python sets of
strings become duplicate-free lists, and each method of the engine becomes an
executable Lean function that is a line-by-line translation of its body.
-/

namespace FlowStudio

/-- Value is the JSON-like data passed between components: strings, integers,
booleans, dicts (insertion-ordered key/value lists) and null. -/
inductive Value where
  | vstr (s : String)
  | vint (n : Int)
  | vbool (b : Bool)
  | vdict (entries : List (String × Value))
  | vnull

/-- Dict is an insertion-ordered Python dict with string keys. -/
abbrev Dict := List (String × Value)

/-- alookup finds the value bound to a key in an association list
(Python d[k] / d.get(k)). -/
def alookup {β : Type} : List (String × β) → String → Option β
  | [], _ => none
  | (k, v) :: rest, key => if k = key then some v else alookup rest key

/-- aset models Python d[k] = v on an insertion-ordered dict: an existing
binding is replaced in place, a new key is appended at the end. -/
def aset {β : Type} (d : List (String × β)) (k : String) (v : β) : List (String × β) :=
  match d with
  | [] => [(k, v)]
  | (k0, v0) :: rest => if k0 = k then (k, v) :: rest else (k0, v0) :: aset rest k v

/-- dictUpdate models Python d.update(other): every binding of other is
written into d in order. -/
def dictUpdate (d other : Dict) : Dict :=
  other.foldl (fun acc kv => aset acc kv.1 kv.2) d

/-- optTruthy is Python truthiness for an optional string: None and the empty
string are falsy. -/
def optTruthy : Option String → Bool
  | none => false
  | some s => s ≠ ""

/-- Edge mirrors one entry of flow_data['edges']: endpoints, the two optional
handles, and the edge's data object (isMultiVariableConnection flag and
variableMappings, each mapping being an (outputVariable, targetVariable)
pair). -/
structure Edge where
  source : String
  target : String
  sourceHandle : Option String := none
  targetHandle : Option String := none
  isMultiVariableConnection : Bool := false
  variableMappings : List (String × String) := []

/-- NodeTemplate mirrors node['data']['template']: the component type and the
declared input schema (the engine reads but never uses input_schema). -/
structure NodeTemplate where
  component_type : String := ""
  input_schema : Dict := []

/-- NodeData mirrors node['data']: the template and the statically configured
input values. -/
structure NodeData where
  template : NodeTemplate := {}
  input_values : Dict := []

/-- Node mirrors one entry of flow_data['nodes']. -/
structure Node where
  id : String
  data : NodeData := {}

/-- varNameAfterDot models target_handle.split('.', 1)[1] for a handle that
starts with "output." (the only place the engine splits): it drops the
7-character "output." prefix. -/
def varNameAfterDot (s : String) : String := s.drop 7

/-- strContainsDot models Python's '.' in s. -/
def strContainsDot (s : String) : Bool := s.data.contains '.'

/-- strStartsWithOutputDot models Python's s.startswith("output."). -/
def strStartsWithOutputDot (s : String) : Bool :=
  List.isPrefixOf "output.".data s.data

/-- legacyMultiPort is the final elif of _prepare_component_input (lines
386-387): the source output is a dict containing the source handle as a key
and a truthy target handle is present. -/
def legacyMultiPort (input : Dict) (e : Edge) (sourceOutput : Value) : Dict :=
  match sourceOutput, e.sourceHandle, e.targetHandle with
  | Value.vdict so, some sh, some th =>
    match alookup so sh with
    | some v => if th ≠ "" then aset input th v else input
    | none => input
  | _, _, _ => input

/-- dottedSourceBranch is the third elif of _prepare_component_input (lines
375-383, dotted source-handle extraction) followed by the legacy multi-port
elif when its own condition is false.  The elif condition requires the source
handle to be dotted with prefix "output." and the source output to be a dict
with an "output" key; only then is the body entered (which silently adds
nothing when the nested content is not a dict, the variable is missing, or
the target handle is falsy). -/
def dottedSourceBranch (input : Dict) (e : Edge) (sourceOutput : Value) : Dict :=
  match e.sourceHandle with
  | none => input
  | some sh =>
    if strContainsDot sh && strStartsWithOutputDot sh then
      match sourceOutput with
      | Value.vdict so =>
        match alookup so "output" with
        | some (Value.vdict outputContent) =>
          match alookup outputContent (varNameAfterDot sh), e.targetHandle with
          | some v, some th =>
            if th ≠ "" then aset input th v else input
          | _, _ => input
        | some _ => input
        | none => legacyMultiPort input e sourceOutput
      | _ => legacyMultiPort input e sourceOutput
    else legacyMultiPort input e sourceOutput

/-- applyEdgeInput is the body of the per-edge branch chain of
FlowExecutionEngine._prepare_component_input (lines 325-387): given the
target node id, the outputs produced so far and the input dict accumulated so
far, it adds this edge's contribution.  The branch order (multi-variable
mapping, nested single output port, dotted source handle, legacy multi-port)
and every guard mirror the Python elif chain. -/
def applyEdgeInput (nodeId : String) (componentOutputs : List (String × Value))
    (input : Dict) (e : Edge) : Dict :=
  if e.target = nodeId then
    match alookup componentOutputs e.source with
    | none => input
    | some sourceOutput =>
      if optTruthy e.sourceHandle then
        if e.isMultiVariableConnection ∧ e.variableMappings ≠ [] then
          match sourceOutput with
          | Value.vdict so =>
            match alookup so "output" with
            | some (Value.vdict outputContent) =>
              e.variableMappings.foldl (fun acc m =>
                match alookup outputContent m.1 with
                | some v => aset acc m.2 v
                | none => acc) input
            | _ => input
          | _ => input
        else if e.sourceHandle = some "output" then
          match sourceOutput with
          | Value.vdict so =>
            match alookup so "output" with
            | some (Value.vdict outputContent) =>
              match e.targetHandle with
              | some th =>
                if th ≠ "" then
                  match alookup outputContent th with
                  | some v => aset input th v
                  | none =>
                    if strContainsDot th && strStartsWithOutputDot th then
                      match alookup outputContent (varNameAfterDot th) with
                      | some v => aset input th v
                      | none => input
                    else dictUpdate input outputContent
                else dictUpdate input outputContent
              | none => dictUpdate input outputContent
            | some outputContent =>
              match e.targetHandle with
              | some th => if th ≠ "" then aset input th outputContent else input
              | none => input
            | none => dottedSourceBranch input e sourceOutput
          | _ => dottedSourceBranch input e sourceOutput
        else dottedSourceBranch input e sourceOutput
      else input
  else input

/-- prepareComponentInput is FlowExecutionEngine._prepare_component_input:
start from the node's configured input_values and fold every edge's
contribution over the edge list in order. -/
def prepareComponentInput (nodeId : String) (edges : List Edge)
    (componentOutputs : List (String × Value)) (node : Node) : Dict :=
  (edges.foldl (applyEdgeInput nodeId componentOutputs)
    (dictUpdate [] node.data.input_values))

/-- setAdd models Python set.add on a set represented as a duplicate-free
list: adding a present element is a no-op, a new element is appended. -/
def setAdd (s : List String) (x : String) : List String :=
  if x ∈ s then s else s ++ [x]

/-- Graph is the dependency graph of _build_execution_graph: an
insertion-ordered dict mapping a node id to the set of node ids it depends
on. -/
abbrev Graph := List (String × List String)

/-- graphAddDep models graph[target].add(source) on a defaultdict(set): a
missing key is created with the singleton set. -/
def graphAddDep (g : Graph) (target source : String) : Graph :=
  match alookup g target with
  | some deps => aset g target (setAdd deps source)
  | none => g ++ [(target, [source])]

/-- buildExecutionGraph is FlowExecutionEngine._build_execution_graph (lines
131-150): seed every node id with an empty dependency set, then for each edge
record that the target depends on the source. -/
def buildExecutionGraph (nodes : List Node) (edges : List Edge) : Graph :=
  edges.foldl (fun g e => graphAddDep g e.target e.source)
    (nodes.foldl (fun g n => aset g n.id []) [])

/-- depsOf models graph.get(node_id, set()). -/
def depsOf (g : Graph) (k : String) : List String := (alookup g k).getD []

/-- hcNode is the recursive has_cycle closure of
_validate_execution_graph (lines 158-172): a node already on the recursion
stack signals a cycle, a visited node is skipped, otherwise the node is
marked visited and its dependencies are traversed with the node pushed on the
stack.  The fuel argument only bounds recursion depth; validateExecutionGraph
passes enough fuel for it never to run out (hcNode_fuel_sound below), so the
fuel-exhausted branch is dead code.  It returns the cycle flag and the
updated visited set. -/
def hcNode (g : Graph) : Nat → String → List String → List String →
    Bool × List String
  | 0, _, visited, _ => (true, visited)
  | fuel+1, node, visited, recStack =>
    if node ∈ recStack then (true, visited)
    else if node ∈ visited then (false, visited)
    else
      (depsOf g node).foldl
        (fun acc d => if acc.1 then acc else hcNode g fuel d acc.2 (node :: recStack))
        (false, visited ++ [node])

/-- validateLoop is the outer loop of _validate_execution_graph (lines
174-181): call has_cycle on every not-yet-visited node id in node-list order;
reject on the first cycle found. -/
def validateLoop (g : Graph) (fuel : Nat) : List String → List String → Bool
  | [], _ => true
  | n :: rest, visited =>
    if n ∈ visited then validateLoop g fuel rest visited
    else
      match hcNode g fuel n visited [] with
      | (true, _) => false
      | (false, visited2) => validateLoop g fuel rest visited2

/-- validateFuel is enough fuel for the DFS: one more than the number of
names that can ever enter the visited set (listed node ids, graph keys and
every dependency-set member). -/
def validateFuel (g : Graph) (nodes : List Node) : Nat :=
  (nodes.map Node.id ++ g.map Prod.fst ++ (g.map Prod.snd).flatten).length + 1

/-- validateExecutionGraph is FlowExecutionEngine._validate_execution_graph
(lines 152-181). -/
def validateExecutionGraph (g : Graph) (nodes : List Node) : Bool :=
  validateLoop g (validateFuel g nodes) (nodes.map Node.id) []

/-- buildInDegree is the in-degree dict of _calculate_execution_order (lines
188-192): every node id starts at 0, then every graph key is overwritten with
the size of its dependency set. -/
def buildInDegree (g : Graph) (nodes : List Node) : List (String × Int) :=
  g.foldl (fun d e => aset d e.1 (e.2.length : Int))
    (nodes.foldl (fun d n => aset d n.id (0 : Int)) [])

/-- initialQueue seeds the Kahn queue with the zero-in-degree keys in dict
order (line 195). -/
def initialQueue (indeg : List (String × Int)) : List String :=
  (indeg.filter (fun e => e.2 = 0)).map Prod.fst

/-- processDecrements is the inner for-loop of _calculate_execution_order
(lines 202-207): every graph key whose dependency set contains the popped
node has its in-degree decremented, and keys that reach exactly 0 are
collected for the queue in graph order. -/
def processDecrements (g : Graph) (indeg : List (String × Int)) (current : String) :
    List (String × Int) × List String :=
  g.foldl (fun acc e =>
    if current ∈ e.2 then
      let v := (alookup acc.1 e.1).getD 0 - 1
      if v = 0 then (aset acc.1 e.1 v, acc.2 ++ [e.1])
      else (aset acc.1 e.1 v, acc.2)
    else acc) (indeg, [])

/-- kahnLoop is the while-loop of _calculate_execution_order (lines 198-207):
pop the queue head, append it to the order, decrement dependents and enqueue
the newly-zero ones.  The fuel argument is a modelling artifact (the Python
loop has no bound); calculateExecutionOrder passes enough fuel for the loop
always to drain the queue (kahnLoop_fuel_sound below), so none is dead
code. -/
def kahnLoop (g : Graph) : Nat → List String → List (String × Int) →
    List String → Option (List String)
  | 0, queue, _, order => if queue = [] then some order else none
  | _+1, [], _, order => some order
  | fuel+1, current :: queue, indeg, order =>
    let step := processDecrements g indeg current
    kahnLoop g fuel (queue ++ step.2) step.1 (order ++ [current])

/-- calculateExecutionOrder is FlowExecutionEngine._calculate_execution_order
(lines 183-212): run Kahn's algorithm and raise ValueError when the produced
order does not cover every node. -/
def calculateExecutionOrder (g : Graph) (nodes : List Node) :
    Except String (List String) :=
  let indeg := buildInDegree g nodes
  match kahnLoop g (indeg.length + 1) (initialQueue indeg) indeg [] with
  | none => Except.error "kahn fuel exhausted"
  | some order =>
    if order.length ≠ nodes.length then
      Except.error "Unable to determine execution order - graph may contain cycles"
    else Except.ok order

/-- depRel edges s t holds when some edge runs from s to t, i.e. t depends
directly on s. -/
def depRel (edges : List Edge) (s t : String) : Prop :=
  ∃ e ∈ edges, e.source = s ∧ e.target = t

/-- Acyclic means no node reaches itself through one or more edges. -/
def Acyclic (edges : List Edge) : Prop :=
  ∀ v, ¬ Relation.TransGen (depRel edges) v v

/-- rheInt rounds the fraction a/b (for b > 0) to the nearest integer,
breaking ties toward the even neighbour (the IEEE-754 default rounding used
by CPython floats), using only integer arithmetic. -/
def rheInt (a : Int) (b : Nat) : Int :=
  if 2 * (a % (b : Int)) < (b : Int) then a / (b : Int)
  else if (b : Int) < 2 * (a % (b : Int)) then a / (b : Int) + 1
  else if (a / (b : Int)) % 2 = 0 then a / (b : Int) else a / (b : Int) + 1

/-- sclAux finds, starting from s and within fuel steps, the least scale s
such that num·2^s reaches den·2^52. -/
def sclAux (num : Int) (den : Nat) : Nat → Nat → Nat
  | 0, s => s
  | fuel+1, s =>
    if (den : Int) * 2^52 ≤ num * 2^s then s
    else sclAux num den fuel (s+1)

/-- flScale q is the least s ≥ 0 with q·2^s ≥ 2^52 (stated on the numerator
and denominator of q), so that q·2^s sits in the 53-bit significand range;
the fuel 52 + q.den is always sufficient for positive q (flScale_le
below). -/
def flScale (q : ℚ) : Nat := sclAux q.num q.den (52 + q.den) 0

/-- fl rounds a nonnegative rational to the nearest IEEE binary64 double
(round-to-nearest, ties-to-even), modelled exactly over ℚ: scale q into the
53-bit significand range, round the significand to an integer half-to-even,
and scale back.  The model is exact for the values that occur here (normal,
positive, below 2^53): the progress computation only ever rounds k/N for
1 ≤ k ≤ N and a value in (0, 100]. -/
def fl (q : ℚ) : ℚ :=
  if q.num ≤ 0 then 0
  else mkRat (rheInt (q.num * 2 ^ flScale q) q.den) (2 ^ flScale q)

/-- mulNat multiplies a rational by a natural number (kernel-computable). -/
def mulNat (q : ℚ) (n : Nat) : ℚ := mkRat (q.num * n) q.den

/-- pyProgress models the Python expression
int((completed / total) * 100) from _execute_components line 293 and
_update_execution_progress line 483: two correctly rounded binary64
operations (the division and the product by the exactly representable 100)
followed by int() truncation (floor, as the value is nonnegative). -/
def pyProgress (completed total : Nat) : Int :=
  Rat.floor (fl (mulNat (fl (mkRat completed total)) 100))

/-- ExecResult mirrors component_executors.ExecutionResult: the value an
executor returns when it does not raise. -/
structure ExecResult where
  success : Bool
  output_data : Value
  execution_time_ms : Int := 0
  error_message : Option String := none

/-- ExecOutcome is the observable behaviour of one executor.execute call:
either a returned ExecutionResult or a raised exception with its message. -/
inductive ExecOutcome where
  | result (res : ExecResult)
  | raised (error : String)

/-- Event is one WebSocket notification sent through execution_notifier. -/
inductive Event where
  | executionStarted
  | componentStarted (componentId : String)
  | componentCompleted (componentId : String)
  | componentFailed (componentId : String) (error : String)
  | executionProgress (progress : Int)
  | executionCompleted
  | executionFailed (error : String)
deriving DecidableEq

/-- CompRecord mirrors the ComponentExecution row for one node (status
defaults to "pending" per the model column default). -/
structure CompRecord where
  component_id : String
  component_type : String
  execution_order : Nat
  status : String := "pending"
  output_data : Option Value := none
  error_message : Option String := none

/-- FlowRecord mirrors the FlowExecution row fields the engine writes. -/
structure FlowRecord where
  status : String := "pending"
  progress : Int := 0
  total_components : Nat := 0
  completed_components : Nat := 0
  error_message : Option String := none
  final_output : Option Dict := none

/-- RunState is the observable state of one flow run: the execution row, the
component rows (in execution order) and the emitted notifications in
order. -/
structure RunState where
  record : FlowRecord
  comps : List CompRecord := []
  events : List Event := []

/-- addEvent appends one notification. -/
def addEvent (st : RunState) (e : Event) : RunState :=
  { st with events := st.events ++ [e] }

/-- updateExecutionStatus is _update_execution_status (lines 391-416): set
the status and, when a truthy error message is supplied, the error_message
column (a None or empty message leaves the previous value in place). -/
def updateExecutionStatus (st : RunState) (status : String)
    (errorMessage : Option String) : RunState :=
  let em := match errorMessage with
    | some m => if m ≠ "" then some m else st.record.error_message
    | none => st.record.error_message
  { st with record := { st.record with status := status, error_message := em } }

/-- updateComponentStatus is _update_component_status (lines 418-446): update
the status (and a truthy error message) of every component row with this
component id. -/
def updateComponentStatus (st : RunState) (componentId status : String)
    (errorMessage : Option String) : RunState :=
  { st with comps := st.comps.map (fun ce =>
      if ce.component_id = componentId then
        { ce with status := status,
                  error_message := match errorMessage with
                    | some m => if m ≠ "" then some m else ce.error_message
                    | none => ce.error_message }
      else ce) }

/-- updateComponentExecution is _update_component_execution (lines 448-474):
record the executor result on the component row — completed on success,
failed with the error message otherwise, storing the output either way. -/
def updateComponentExecution (st : RunState) (componentId : String)
    (res : ExecResult) : RunState :=
  { st with comps := st.comps.map (fun ce =>
      if ce.component_id = componentId then
        { ce with status := if res.success then "completed" else "failed",
                  output_data := some res.output_data,
                  error_message := if res.success then ce.error_message
                    else res.error_message }
      else ce) }

/-- updateExecutionProgress is _update_execution_progress (lines 476-494). -/
def updateExecutionProgress (st : RunState) (completed total : Nat) : RunState :=
  { st with record := { st.record with
      progress := pyProgress completed total,
      completed_components := completed } }

/-- nodeMapOf is the node_map dict comprehension (line 245). -/
def nodeMapOf (nodes : List Node) : List (String × Node) :=
  nodes.foldl (fun m n => aset m n.id n) []

/-- executeComponentsLoop is the for-loop of _execute_components (lines
248-304) over the remaining execution order, with i the enumeration index
and total the order length: mark the node running, notify, resolve its
input, run the executor; a raised error marks the node failed, notifies
component_failed and aborts with the error; a returned result (successful or
not) is recorded, its output stored for downstream nodes, component_completed
and a progress update are emitted, and the loop continues. -/
def executeComponentsLoop (execf : String → Dict → ExecOutcome)
    (nodes : List Node) (edges : List Edge) (total : Nat) :
    List String → Nat → List (String × Value) → RunState →
    RunState × Option String
  | [], _, _, st => (st, none)
  | nid :: rest, i, outputs, st =>
    let st1 := addEvent (updateComponentStatus st nid "running" none)
      (Event.componentStarted nid)
    let node := (alookup (nodeMapOf nodes) nid).getD { id := nid }
    let inputData := prepareComponentInput nid edges outputs node
    match execf nid inputData with
    | ExecOutcome.raised err =>
      (addEvent (updateComponentStatus st1 nid "failed" (some err))
        (Event.componentFailed nid err), some err)
    | ExecOutcome.result res =>
      let outputs2 := aset outputs nid res.output_data
      let st2 := addEvent (updateComponentExecution st1 nid res)
        (Event.componentCompleted nid)
      let st3 := addEvent (updateExecutionProgress st2 (i+1) total)
        (Event.executionProgress (pyProgress (i+1) total))
      executeComponentsLoop execf nodes edges total rest (i+1) outputs2 st3

/-- valueTruthy is Python truthiness of a JSON value (empty dict, empty
string, zero, false and null are falsy). -/
def valueTruthy : Value → Bool
  | Value.vstr s => s ≠ ""
  | Value.vint n => n ≠ 0
  | Value.vbool b => b
  | Value.vdict d => !d.isEmpty
  | Value.vnull => false

/-- finalizeExecution is _finalize_execution (lines 516-556): when every
component row is completed, collect the truthy outputs of output-typed
components as final_output, mark the run completed and notify; otherwise mark
it failed with "One or more components failed" and notify. -/
def finalizeExecution (st : RunState) : RunState :=
  if st.comps.all (fun ce => ce.status = "completed") then
    let finalOutput := st.comps.foldl (fun acc ce =>
      match ce.output_data with
      | some od =>
        if valueTruthy od ∧
            ce.component_type ∈ ["text_output", "file_output", "data_output"] then
          aset acc ce.component_id od
        else acc
      | none => acc) []
    addEvent { st with record := { st.record with
        status := "completed", final_output := some finalOutput } }
      Event.executionCompleted
  else
    addEvent (updateExecutionStatus st "failed"
        (some "One or more components failed"))
      (Event.executionFailed "One or more components failed")

/-- createComponentExecutionRecords is _create_component_execution_records
(lines 214-234): one pending ComponentExecution row per node, in execution
order. -/
def createComponentExecutionRecords (st : RunState) (nodes : List Node)
    (order : List String) : RunState :=
  { st with comps := st.comps ++ order.enum.map (fun p =>
      { component_id := p.2,
        component_type :=
          ((alookup (nodeMapOf nodes) p.2).getD { id := p.2 }).data.template.component_type,
        execution_order := p.1 }) }

/-- executeFlow is FlowExecutionEngine.execute_flow (lines 34-100) for a flow
whose snapshot holds the given nodes and edges, with executor behaviour
abstracted by execf (node id and resolved input to outcome): empty flows
complete immediately; a rejected validation fails the record; a ValueError
from ordering is caught by the outer except, failing the record and
notifying; otherwise component rows are created, the record runs, the loop
executes in order and a raised component error is caught by the outer except
(record failed, execution_failed notified); a completed loop is finalized. -/
def executeFlow (nodes : List Node) (edges : List Edge)
    (execf : String → Dict → ExecOutcome) : RunState :=
  let st0 : RunState := { record := { total_components := nodes.length } }
  if nodes.isEmpty then
    updateExecutionStatus st0 "completed" (some "No components to execute")
  else
    let g := buildExecutionGraph nodes edges
    if ¬ validateExecutionGraph g nodes then
      updateExecutionStatus st0 "failed" (some "Invalid flow structure")
    else
      match calculateExecutionOrder g nodes with
      | Except.error e =>
        addEvent (updateExecutionStatus st0 "failed" (some e))
          (Event.executionFailed e)
      | Except.ok order =>
        let st1 := createComponentExecutionRecords st0 nodes order
        let st2 := addEvent (updateExecutionStatus st1 "running" none)
          Event.executionStarted
        let run := executeComponentsLoop execf nodes edges order.length
          order 0 [] st2
        match run.2 with
        | some e =>
          addEvent (updateExecutionStatus run.1 "failed" (some e))
            (Event.executionFailed e)
        | none => finalizeExecution run.1

/-- FlowProcess mirrors the bookkeeping fields of
flow_api_gateway.FlowProcess (the OS process handle and timestamps are
external). -/
structure FlowProcess where
  flow_id : String
  flow_version : String
  port : Nat
  status : String := "starting"
deriving DecidableEq

/-- PMState is the mutable state of FlowProcessManager: the free-port set,
the used-port set and the process registry.  Python's sets of small ints are
modelled as ascending duplicate-free lists, set.pop taking the head (CPython
iterates small-int sets in ascending value order). -/
structure PMState where
  portPool : List Nat
  usedPorts : List Nat
  processes : List (String × FlowProcess)
deriving DecidableEq

/-- insertSorted models set.add for the ascending-list set model. -/
def insertSorted : List Nat → Nat → List Nat
  | [], x => [x]
  | y :: rest, x =>
    if x = y then y :: rest
    else if x < y then x :: y :: rest
    else y :: insertSorted rest x

/-- setDiscard models set.discard (no error when absent). -/
def setDiscard (s : List Nat) (x : Nat) : List Nat := s.filter (fun y => y ≠ x)

/-- initPMState is FlowProcessManager.__init__ (lines 61-67) with
base_port = 8100 and max_processes = 50 by default: the pool holds the full
port range, no port used, no process registered. -/
def initPMState (basePort maxProcesses : Nat) : PMState :=
  { portPool := List.range' basePort maxProcesses,
    usedPorts := [],
    processes := [] }

/-- processKey is get_process_key (lines 86-88). -/
def processKey (flowId flowVersion : String) : String :=
  flowId ++ ":" ++ flowVersion

/-- eraseKey models dict.pop(key, None). -/
def eraseKey (procs : List (String × FlowProcess)) (k : String) :
    List (String × FlowProcess) :=
  procs.filter (fun e => e.1 ≠ k)

/-- createProcess is FlowProcessManager._create_process (lines 118-169) with
the two external effects abstracted: spawnOk is whether script creation and
Popen succeed (they run before the process is registered), waitOk is whether
_wait_for_process_ready sees a healthy response within the timeout, and diag
is the worker's diagnostic output captured on timeout (lines 282-313).  It
returns the new manager state and either the ready process or the raised
HTTPException detail.  On the wait timeout the registered process object is
mutated to status "error", the port is returned to the pool and removed from
the used set, but the registry entry is not removed. -/
def createProcess (st : PMState) (flowId flowVersion : String)
    (spawnOk waitOk : Bool) (diag : String) :
    PMState × Except String FlowProcess :=
  match st.portPool with
  | [] => (st, Except.error "No available ports for new process")
  | port :: poolRest =>
    let used1 := insertSorted st.usedPorts port
    if !spawnOk then
      ({ st with portPool := insertSorted poolRest port,
                 usedPorts := setDiscard used1 port },
       Except.error "Failed to create flow process: spawn failed")
    else
      let key := processKey flowId flowVersion
      let fp : FlowProcess :=
        { flow_id := flowId, flow_version := flowVersion, port := port }
      if waitOk then
        let fpReady := { fp with status := "ready" }
        ({ portPool := poolRest, usedPorts := used1,
           processes := aset st.processes key fpReady },
         Except.ok fpReady)
      else
        let fpErr := { fp with status := "error" }
        ({ portPool := insertSorted poolRest port,
           usedPorts := setDiscard used1 port,
           processes := aset st.processes key fpErr },
         Except.error
           ("Failed to create flow process: Process failed to start within 30 seconds. Error: "
             ++ diag))

/-- stopProcess is FlowProcessManager._stop_process (lines 333-357), with the
OS-level termination external: discard the port from the used set, add it
back to the pool, and pop the registry entry for the process key. -/
def stopProcess (st : PMState) (fp : FlowProcess) : PMState :=
  { portPool := insertSorted st.portPool fp.port,
    usedPorts := setDiscard st.usedPorts fp.port,
    processes := eraseKey st.processes (processKey fp.flow_id fp.flow_version) }

/-- PMOp is one manager operation in a history: a process creation (with the
outcome of its external effects) or a stop of the registered process of a
key, as done by get_or_create_process on an unhealthy entry and by
unpublish. -/
inductive PMOp where
  | create (flowId flowVersion : String) (spawnOk waitOk : Bool) (diag : String)
  | stopKey (key : String)

/-- runPMOp applies one operation to the manager state. -/
def runPMOp (st : PMState) : PMOp → PMState
  | PMOp.create fid fver so wo diag => (createProcess st fid fver so wo diag).1
  | PMOp.stopKey k =>
    match alookup st.processes k with
    | some fp => stopProcess st fp
    | none => st

/-- runPMOps applies a history of operations in order. -/
def runPMOps (st : PMState) (ops : List PMOp) : PMState :=
  ops.foldl runPMOp st

/-- PoolInv is the port-bookkeeping invariant of FlowProcessManager: the free
pool and the used set partition the configured port range (disjoint, union
the full range), both are sorted duplicate-free sets, and every registered
process holds a port of the range. -/
def PoolInv (basePort maxProcesses : Nat) (st : PMState) : Prop :=
  (∀ p : Nat, (p ∈ st.portPool ∨ p ∈ st.usedPorts) ↔
     (basePort ≤ p ∧ p < basePort + maxProcesses))
  ∧ (∀ p : Nat, ¬(p ∈ st.portPool ∧ p ∈ st.usedPorts))
  ∧ List.Sorted (· < ·) st.portPool
  ∧ List.Sorted (· < ·) st.usedPorts
  ∧ (∀ e ∈ st.processes,
      basePort ≤ e.2.port ∧ e.2.port < basePort + maxProcesses)

/-- LiveInv strengthens PoolInv for failure-free histories: every registered
process holds a port of the used set, every entry is registered under the key
derived from its own flow_id and flow_version (as _create_process does), and
processes under distinct keys hold distinct ports. -/
def LiveInv (basePort maxProcesses : Nat) (st : PMState) : Prop :=
  PoolInv basePort maxProcesses st
  ∧ (∀ e ∈ st.processes, e.2.port ∈ st.usedPorts)
  ∧ (∀ e ∈ st.processes, e.1 = processKey e.2.flow_id e.2.flow_version)
  ∧ (∀ e₁ ∈ st.processes, ∀ e₂ ∈ st.processes,
      e₁.1 ≠ e₂.1 → e₁.2.port ≠ e₂.2.port)

/-- PMOpGood marks operations whose external effects succeed (spawn and
health wait both succeed for creations; stops are always failure-free). -/
def PMOpGood : PMOp → Bool
  | PMOp.create _ _ spawnOk waitOk _ => spawnOk && waitOk
  | PMOp.stopKey _ => true

/-- progressValues extracts the sequence of execution_progress payloads from
an event list, in emission order. -/
def progressValues (evs : List Event) : List Int :=
  evs.filterMap (fun e => match e with
    | Event.executionProgress p => some p
    | _ => none)

/-- c8nodes is a concrete 50-node flow (distinct ids, no configuration). -/
def c8nodes : List Node := (List.range 50).map (fun i => { id := Nat.repr i })

/-- c8run executes the 50-node flow with every executor succeeding. -/
def c8run : RunState :=
  executeFlow c8nodes []
    (fun _ _ => ExecOutcome.result { success := true, output_data := Value.vnull })

/-- GWF collects the well-formedness facts that buildExecutionGraph
guarantees for the graph handed to _calculate_execution_order: its keys are
exactly the (duplicate-free) node ids, every dependency set is duplicate-free,
every dependency is a listed node, and no node depends on itself. -/
def GWF (g : Graph) (ids : List String) : Prop :=
  g.map Prod.fst = ids
  ∧ ids.Nodup
  ∧ (∀ k ∈ ids, (depsOf g k).Nodup)
  ∧ (∀ k ∈ ids, ∀ s ∈ depsOf g k, s ∈ ids)
  ∧ (∀ k ∈ ids, k ∉ depsOf g k)

/-- KInv is the invariant of the Kahn while-loop: the in-degree dict keeps one
entry per node id holding the number of its dependencies not yet emitted,
emitted-or-queued nodes are exactly those whose dependencies are all emitted,
and every emitted node follows all of its dependencies in the order. -/
def KInv (g : Graph) (ids : List String) (order queue : List String)
    (indeg : List (String × Int)) : Prop :=
  indeg.map Prod.fst = ids
  ∧ (order ++ queue).Nodup
  ∧ (∀ x ∈ order ++ queue, x ∈ ids)
  ∧ (∀ k ∈ ids, alookup indeg k =
      some (((depsOf g k).filter (fun s => decide (s ∉ order))).length : Int))
  ∧ (∀ k ∈ ids, (k ∈ order ++ queue ↔ ∀ s ∈ depsOf g k, s ∈ order))
  ∧ (∀ k ∈ order, ∀ s ∈ depsOf g k,
      s ∈ order ∧ order.indexOf s < order.indexOf k)

/-- pdBody is the loop body of processDecrements with the let binding
expanded, used to state the inner-loop specification. -/
def pdBody (current : String) (acc : List (String × Int) × List String)
    (e : String × List String) : List (String × Int) × List String :=
  if current ∈ e.2 then
    if (alookup acc.1 e.1).getD 0 - 1 = 0
    then (aset acc.1 e.1 ((alookup acc.1 e.1).getD 0 - 1), acc.2 ++ [e.1])
    else (aset acc.1 e.1 ((alookup acc.1 e.1).getD 0 - 1), acc.2)
  else acc

/-- c2nodes is a concrete three-node flow used to instantiate the topological
ordering theorem. -/
def c2nodes : List Node := [{ id := "A" }, { id := "B" }, { id := "C" }]

/-- c2edges is the linear chain A before B before C. -/
def c2edges : List Edge :=
  [{ source := "A", target := "B" }, { source := "B", target := "C" }]

/-- c2rank witnesses acyclicity of c2edges: a numeric rank strictly increasing
along every edge. -/
def c2rank (s : String) : Nat := if s = "A" then 0 else if s = "B" then 1 else 2

/-- childRel is the edge relation the validation DFS actually follows: from a
node to each member of its dependency set. -/
def childRel (g : Graph) (s k : String) : Prop := s ∈ depsOf g k

/-- c3nodes is a two-node flow whose listed nodes form a dependency cycle. -/
def c3nodes : List Node := [{ id := "A" }, { id := "B" }]

/-- c3edges is the cycle A before B before A. -/
def c3edges : List Edge :=
  [{ source := "A", target := "B" }, { source := "B", target := "A" }]

/-- c3badNodes lists a single node A... -/
def c3badNodes : List Node := [{ id := "A" }]

/-- ...while c3badEdges forms a cycle between two ids B and C that appear in
edges only, never in the node list. -/
def c3badEdges : List Edge :=
  [{ source := "B", target := "C" }, { source := "C", target := "B" }]

/-- c3badRun executes the unlisted-cycle flow with an always-succeeding
executor. -/
def c3badRun : RunState :=
  executeFlow c3badNodes c3badEdges
    (fun _ _ => ExecOutcome.result { success := true, output_data := Value.vnull })

/-! Claim theorems. -/

/-- C4: for a target node with no static configured values and a single
incoming edge with source_handle "output" and target_handle "text", where the
source's stored output is the dict with nested output
containing text = "hi" and length = 2, the resolved input map is exactly the
single binding text = "hi": the named field is copied from the nested
output object and nothing else is added. -/
theorem c4_named_field_copied_from_nested_output :
    prepareComponentInput "T"
      [{ source := "S", target := "T", sourceHandle := some "output",
         targetHandle := some "text" }]
      [("S", Value.vdict [("output",
        Value.vdict [("text", Value.vstr "hi"), ("length", Value.vint 2)])])]
      { id := "T" } = [("text", Value.vstr "hi")] := rfl

/-- C9: for a flow whose snapshot contains zero nodes, execute_flow marks the
execution record completed immediately and returns it: the component-record
list stays empty (no node execution records, so no dependency graph was
needed and no executor ran), the event list stays empty (no
execution_started notification), and the completed record carries the
message "No components to execute" in its error_message field. -/
theorem c9_empty_flow_completes_immediately (edges : List Edge)
    (execf : String → Dict → ExecOutcome) :
    executeFlow [] edges execf =
      { record := { status := "completed",
                    error_message := some "No components to execute",
                    total_components := 0 },
        comps := [], events := [] } := rfl

/-- C5: for an incoming edge with source_handle "output" whose source output
has a nested output dict: (1) when the given target handle is not a key of
the nested dict but follows output.<field> dotted addressing with the field
present, the resolver extracts exactly that single field (one binding, whose
value is the nested field, stored under the handle name); (2) when no target
handle is given, all nested fields are merged into the input map (implicit
broadcast); (3) concretely, for source output
output = (text = "hi", length = 2) and no target handle, the resolved input
contains both text and length. -/
theorem c5_dotted_extraction_and_implicit_broadcast :
    (∀ (input : Dict) (outputs : List (String × Value)) (nid : String)
       (so oc : Dict) (th : String) (v : Value) (e : Edge),
       e.target = nid →
       e.isMultiVariableConnection = false →
       e.sourceHandle = some "output" →
       alookup outputs e.source = some (Value.vdict so) →
       alookup so "output" = some (Value.vdict oc) →
       e.targetHandle = some th →
       th ≠ "" →
       alookup oc th = none →
       strContainsDot th = true →
       strStartsWithOutputDot th = true →
       alookup oc (varNameAfterDot th) = some v →
       applyEdgeInput nid outputs input e = aset input th v)
  ∧ (∀ (input : Dict) (outputs : List (String × Value)) (nid : String)
       (so oc : Dict) (e : Edge),
       e.target = nid →
       e.isMultiVariableConnection = false →
       e.sourceHandle = some "output" →
       alookup outputs e.source = some (Value.vdict so) →
       alookup so "output" = some (Value.vdict oc) →
       e.targetHandle = none →
       applyEdgeInput nid outputs input e = dictUpdate input oc)
  ∧ (alookup (prepareComponentInput "T"
        [{ source := "S", target := "T", sourceHandle := some "output" }]
        [("S", Value.vdict [("output", Value.vdict
          [("text", Value.vstr "hi"), ("length", Value.vint 2)])])]
        { id := "T" }) "text" = some (Value.vstr "hi")
     ∧ alookup (prepareComponentInput "T"
        [{ source := "S", target := "T", sourceHandle := some "output" }]
        [("S", Value.vdict [("output", Value.vdict
          [("text", Value.vstr "hi"), ("length", Value.vint 2)])])]
        { id := "T" }) "length" = some (Value.vint 2)) := by
  refine ⟨?_, ?_, by constructor <;> rfl⟩
  · intro input outputs nid so oc th v e ht hm hh hs ho hth hne h7 hc hsw h9
    simp [applyEdgeInput, optTruthy, ht, hm, hh, hs, ho, hth, hne, h7, hc, hsw, h9]
  · intro input outputs nid so oc e ht hm hh hs ho hth
    simp [applyEdgeInput, optTruthy, ht, hm, hh, hs, ho, hth]

/-- c5_dotted_extraction_witness instantiates both quantified parts of the
C5 theorem at concrete inputs: the dotted handle "output.length" pulls the
single field length = 2 (stored under the handle name), and the
handle-free edge broadcasts the whole nested dict. -/
theorem c5_dotted_extraction_witness :
    applyEdgeInput "T"
      [("S", Value.vdict [("output", Value.vdict
        [("text", Value.vstr "hi"), ("length", Value.vint 2)])])]
      []
      { source := "S", target := "T", sourceHandle := some "output",
        targetHandle := some "output.length" }
      = [("output.length", Value.vint 2)]
  ∧ applyEdgeInput "T"
      [("S", Value.vdict [("output", Value.vdict
        [("text", Value.vstr "hi"), ("length", Value.vint 2)])])]
      []
      { source := "S", target := "T", sourceHandle := some "output" }
      = [("text", Value.vstr "hi"), ("length", Value.vint 2)] :=
  ⟨c5_dotted_extraction_and_implicit_broadcast.1 [] _ "T"
      [("output", Value.vdict [("text", Value.vstr "hi"), ("length", Value.vint 2)])]
      [("text", Value.vstr "hi"), ("length", Value.vint 2)]
      "output.length" (Value.vint 2) _
      rfl rfl rfl rfl rfl rfl (by decide) rfl (by decide) (by decide) rfl,
   c5_dotted_extraction_and_implicit_broadcast.2.1 [] _ "T"
      [("output", Value.vdict [("text", Value.vstr "hi"), ("length", Value.vint 2)])]
      [("text", Value.vstr "hi"), ("length", Value.vint 2)] _
      rfl rfl rfl rfl rfl rfl⟩

/-- C10: input resolution is total by construction (prepareComponentInput is
a fold of applyEdgeInput over the edges, always returning a dict, with no
error path), and an edge contributes nothing — it is silently skipped,
with no MissingRequiredInput-style error — when (1) it does not point at the
node, its source has produced no output yet, or it has a falsy source
handle; (2) the stored source output is not a dict (no branch body can add
anything); or (3) the source output is a dict containing neither the key
"output" nor the source handle as a key (every branch's lookup misses). -/
theorem c10_resolver_total_and_skips_unmatched :
    (∀ (nid : String) (edges : List Edge) (outputs : List (String × Value))
       (node : Node),
       prepareComponentInput nid edges outputs node =
         edges.foldl (applyEdgeInput nid outputs)
           (dictUpdate [] node.data.input_values))
  ∧ (∀ (nid : String) (outputs : List (String × Value)) (input : Dict)
       (e : Edge),
       (e.target ≠ nid ∨ alookup outputs e.source = none ∨
         optTruthy e.sourceHandle = false) →
       applyEdgeInput nid outputs input e = input)
  ∧ (∀ (nid : String) (outputs : List (String × Value)) (input : Dict)
       (e : Edge) (sourceOutput : Value),
       alookup outputs e.source = some sourceOutput →
       (∀ d, sourceOutput ≠ Value.vdict d) →
       applyEdgeInput nid outputs input e = input)
  ∧ (∀ (nid : String) (outputs : List (String × Value)) (input : Dict)
       (e : Edge) (so : Dict) (sh : String),
       alookup outputs e.source = some (Value.vdict so) →
       e.sourceHandle = some sh →
       alookup so "output" = none →
       alookup so sh = none →
       applyEdgeInput nid outputs input e = input) := by
  refine ⟨fun _ _ _ _ => rfl, ?_, ?_, ?_⟩
  · intro nid outputs input e h
    rcases h with h | h | h
    · simp [applyEdgeInput, h]
    · simp [applyEdgeInput, h]
    · simp [applyEdgeInput, h]
      intro hne
      cases halo : alookup outputs e.source <;> simp [h]
  · intro nid outputs input e sourceOutput hs hnd
    cases sourceOutput with
    | vdict d => exact absurd rfl (hnd d)
    | vstr s =>
      simp [applyEdgeInput, hs, dottedSourceBranch, legacyMultiPort]
      intros; split <;> simp [legacyMultiPort]
    | vint n =>
      simp [applyEdgeInput, hs, dottedSourceBranch, legacyMultiPort]
      intros; split <;> simp [legacyMultiPort]
    | vbool b =>
      simp [applyEdgeInput, hs, dottedSourceBranch, legacyMultiPort]
      intros; split <;> simp [legacyMultiPort]
    | vnull =>
      simp [applyEdgeInput, hs, dottedSourceBranch, legacyMultiPort]
      intros; split <;> simp [legacyMultiPort]
  · intro nid outputs input e so sh hs hh ho hsh
    simp [applyEdgeInput, hs, hh, ho, dottedSourceBranch, legacyMultiPort, hsh]
    intro _ _ _
    cases e.targetHandle <;> simp [hsh]

/-- c10_skip_witness instantiates the skip parts of the C10 theorem at
concrete edges: a missing source output, a non-dict source output, and a
dict source output containing neither "output" nor the handle all leave the
accumulated input unchanged. -/
theorem c10_skip_witness :
    applyEdgeInput "T" [] [("x", Value.vint 1)]
      { source := "S", target := "T", sourceHandle := some "output" }
      = [("x", Value.vint 1)]
  ∧ applyEdgeInput "T" [("S", Value.vstr "plain")] [("x", Value.vint 1)]
      { source := "S", target := "T", sourceHandle := some "output",
        targetHandle := some "text" }
      = [("x", Value.vint 1)]
  ∧ applyEdgeInput "T" [("S", Value.vdict [("other", Value.vint 3)])]
      [("x", Value.vint 1)]
      { source := "S", target := "T", sourceHandle := some "result",
        targetHandle := some "text" }
      = [("x", Value.vint 1)] :=
  ⟨c10_resolver_total_and_skips_unmatched.2.1 "T" [] [("x", Value.vint 1)] _
      (Or.inr (Or.inl rfl)),
   c10_resolver_total_and_skips_unmatched.2.2.1 "T" _ [("x", Value.vint 1)] _
      (Value.vstr "plain") rfl (fun d h => by cases h),
   c10_resolver_total_and_skips_unmatched.2.2.2 "T" _ [("x", Value.vint 1)] _
      [("other", Value.vint 3)] "result" rfl rfl rfl rfl⟩

/-! Helper lemmas about run-state updates and the component loop. -/

theorem updateComponentStatus_keeps_other (st : RunState) (cid s : String)
    (em : Option String) {ce : CompRecord} (hce : ce ∈ st.comps)
    (hne : ce.component_id ≠ cid) :
    ce ∈ (updateComponentStatus st cid s em).comps := by
  simp only [updateComponentStatus]
  have : (fun ce : CompRecord =>
      if ce.component_id = cid then
        { ce with status := s,
                  error_message := match em with
                    | some m => if m ≠ "" then some m else ce.error_message
                    | none => ce.error_message }
      else ce) ce = ce := by simp [hne]
  exact this ▸ List.mem_map_of_mem _ hce

theorem updateComponentExecution_keeps_other (st : RunState) (cid : String)
    (res : ExecResult) {ce : CompRecord} (hce : ce ∈ st.comps)
    (hne : ce.component_id ≠ cid) :
    ce ∈ (updateComponentExecution st cid res).comps := by
  simp only [updateComponentExecution]
  have : (fun ce : CompRecord =>
      if ce.component_id = cid then
        { ce with status := if res.success then "completed" else "failed",
                  output_data := some res.output_data,
                  error_message := if res.success then ce.error_message
                    else res.error_message }
      else ce) ce = ce := by simp [hne]
  exact this ▸ List.mem_map_of_mem _ hce

theorem updateComponentStatus_sets_matching (st : RunState) (cid s : String)
    (em : Option String) {ce : CompRecord}
    (hce : ce ∈ (updateComponentStatus st cid s em).comps)
    (hid : ce.component_id = cid) : ce.status = s := by
  simp only [updateComponentStatus, List.mem_map] at hce
  obtain ⟨x, -, hx⟩ := hce
  by_cases h : x.component_id = cid
  · simp [h] at hx
    rw [← hx]
  · simp [h] at hx
    rw [← hx] at hid
    exact absurd hid h

theorem updateComponentStatus_sets_error (st : RunState) (cid s m : String)
    (hm : m ≠ "") {ce : CompRecord}
    (hce : ce ∈ (updateComponentStatus st cid s (some m)).comps)
    (hid : ce.component_id = cid) : ce.error_message = some m := by
  simp only [updateComponentStatus, List.mem_map] at hce
  obtain ⟨x, -, hx⟩ := hce
  by_cases h : x.component_id = cid
  · simp [h, hm] at hx
    rw [← hx]
  · simp [h] at hx
    rw [← hx] at hid
    exact absurd hid h

theorem executeComponentsLoop_events_superset
    (execf : String → Dict → ExecOutcome) (nodes : List Node)
    (edges : List Edge) (total : Nat) :
    ∀ (order : List String) (i : Nat) (outputs : List (String × Value))
      (st : RunState) {ev : Event}, ev ∈ st.events →
      ev ∈ (executeComponentsLoop execf nodes edges total order i outputs st).1.events := by
  intro order
  induction order with
  | nil => intro i outputs st ev h; exact h
  | cons nid rest ih =>
    intro i outputs st ev h
    simp only [executeComponentsLoop]
    have h1 : ev ∈ (addEvent (updateComponentStatus st nid "running" none)
        (Event.componentStarted nid)).events := by
      simp [addEvent, updateComponentStatus]
      exact Or.inl h
    cases hrun : execf nid (prepareComponentInput nid edges outputs
        ((alookup (nodeMapOf nodes) nid).getD { id := nid })) with
    | raised err =>
      simp [addEvent, updateComponentStatus, h1]
      exact Or.inl h
    | result res =>
      apply ih
      simp [addEvent, updateExecutionProgress, updateComponentExecution]
      simp [addEvent, updateComponentStatus] at h1
      tauto

theorem executeComponentsLoop_cons_of_result
    (execf : String → Dict → ExecOutcome) (nodes : List Node)
    (edges : List Edge) (total : Nat) (nid : String) (rest : List String)
    (i : Nat) (outputs : List (String × Value)) (st : RunState)
    (res : ExecResult)
    (h : execf nid (prepareComponentInput nid edges outputs
      ((alookup (nodeMapOf nodes) nid).getD { id := nid })) =
      ExecOutcome.result res) :
    executeComponentsLoop execf nodes edges total (nid :: rest) i outputs st =
      executeComponentsLoop execf nodes edges total rest (i+1)
        (aset outputs nid res.output_data)
        (addEvent (updateExecutionProgress (addEvent
          (updateComponentExecution (addEvent
            (updateComponentStatus st nid "running" none)
            (Event.componentStarted nid)) nid res)
          (Event.componentCompleted nid)) (i+1) total)
          (Event.executionProgress (pyProgress (i+1) total))) := by
  simp only [executeComponentsLoop, h]

theorem executeComponentsLoop_cons_of_raised
    (execf : String → Dict → ExecOutcome) (nodes : List Node)
    (edges : List Edge) (total : Nat) (nid : String) (rest : List String)
    (i : Nat) (outputs : List (String × Value)) (st : RunState)
    (err : String)
    (h : execf nid (prepareComponentInput nid edges outputs
      ((alookup (nodeMapOf nodes) nid).getD { id := nid })) =
      ExecOutcome.raised err) :
    executeComponentsLoop execf nodes edges total (nid :: rest) i outputs st =
      (addEvent (updateComponentStatus (addEvent
          (updateComponentStatus st nid "running" none)
          (Event.componentStarted nid)) nid "failed" (some err))
        (Event.componentFailed nid err), some err) := by
  simp only [executeComponentsLoop, h]

theorem executeComponentsLoop_raise_spec
    (execf : String → Dict → ExecOutcome) (nodes : List Node)
    (edges : List Edge) (total : Nat) (err : String) (nid : String) :
    ∀ (pre suf : List String) (i : Nat) (outputs : List (String × Value))
      (st : RunState),
      (∀ m ∈ pre, ∀ inp, ∃ res, execf m inp = ExecOutcome.result res) →
      (∀ inp, execf nid inp = ExecOutcome.raised err) →
      nid ∉ pre →
      (executeComponentsLoop execf nodes edges total (pre ++ nid :: suf)
          i outputs st).2 = some err
      ∧ (∃ evs, (executeComponentsLoop execf nodes edges total
            (pre ++ nid :: suf) i outputs st).1.events = st.events ++ evs ∧
          ∀ m, Event.componentStarted m ∈ evs → m ∈ pre ∨ m = nid)
      ∧ (∀ ce ∈ (executeComponentsLoop execf nodes edges total
            (pre ++ nid :: suf) i outputs st).1.comps,
          ce.component_id = nid →
          ce.status = "failed" ∧ (err ≠ "" → ce.error_message = some err))
      ∧ (∀ ce ∈ st.comps, ce.component_id ∉ pre → ce.component_id ≠ nid →
          ce ∈ (executeComponentsLoop execf nodes edges total
            (pre ++ nid :: suf) i outputs st).1.comps) := by
  intro pre
  induction pre with
  | nil =>
    intro suf i outputs st _ hnid _
    rw [List.nil_append, executeComponentsLoop_cons_of_raised execf nodes edges
      total nid suf i outputs st err (hnid _)]
    refine ⟨rfl, ⟨[Event.componentStarted nid, Event.componentFailed nid err],
      ?_, ?_⟩, ?_, ?_⟩
    · simp [addEvent, updateComponentStatus]
    · intro m hm
      simp at hm
      exact Or.inr hm
    · intro ce hce hid
      simp only [addEvent] at hce
      constructor
      · exact updateComponentStatus_sets_matching _ nid "failed" (some err) hce hid
      · intro hne
        exact updateComponentStatus_sets_error _ nid "failed" err hne hce hid
    · intro ce hce _ hne
      simp only [addEvent]
      exact updateComponentStatus_keeps_other _ nid "failed" (some err)
        (updateComponentStatus_keeps_other _ nid "running" none hce hne) hne
  | cons m pre ih =>
    intro suf i outputs st hpre hnid hnp
    have hm : ∀ inp, ∃ res, execf m inp = ExecOutcome.result res :=
      hpre m (List.mem_cons_self m pre)
    obtain ⟨res, hres⟩ := hm (prepareComponentInput m edges outputs
      ((alookup (nodeMapOf nodes) m).getD { id := m }))
    have hnp2 : nid ∉ pre := fun h => hnp (List.mem_cons_of_mem m h)
    have hpre2 : ∀ x ∈ pre, ∀ inp, ∃ r, execf x inp = ExecOutcome.result r :=
      fun x hx => hpre x (List.mem_cons_of_mem m hx)
    rw [List.cons_append, executeComponentsLoop_cons_of_result execf nodes edges
      total m (pre ++ nid :: suf) i outputs st res hres]
    obtain ⟨h1, ⟨evs, hevs, hevp⟩, h3, h4⟩ :=
      ih suf (i+1) (aset outputs m res.output_data) _ hpre2 hnid hnp2
    refine ⟨h1, ⟨[Event.componentStarted m, Event.componentCompleted m,
        Event.executionProgress (pyProgress (i+1) total)] ++ evs, ?_, ?_⟩,
      h3, ?_⟩
    · rw [hevs]
      simp [addEvent, updateExecutionProgress, updateComponentExecution,
        updateComponentStatus]
    · intro x hx
      rcases List.mem_append.mp hx with h | h
      · simp at h
        exact Or.inl (h ▸ List.mem_cons_self m pre)
      · rcases hevp x h with h | h
        · exact Or.inl (List.mem_cons_of_mem m h)
        · exact Or.inr h
    · intro ce hce hpm hne
      have hm1 : ce.component_id ≠ m := fun h => hpm (h ▸ List.mem_cons_self m pre)
      have hp2 : ce.component_id ∉ pre := fun h => hpm (List.mem_cons_of_mem m h)
      apply h4 ce _ hp2 hne
      simp only [addEvent, updateExecutionProgress]
      exact updateComponentExecution_keeps_other _ m res
        (updateComponentStatus_keeps_other _ m "running" none hce hm1) hm1

theorem executeComponentsLoop_results_spec
    (execf : String → Dict → ExecOutcome) (nodes : List Node)
    (edges : List Edge) (total : Nat) :
    ∀ (order : List String) (i : Nat) (outputs : List (String × Value))
      (st : RunState),
      (∀ m ∈ order, ∀ inp, ∃ res, execf m inp = ExecOutcome.result res) →
      (executeComponentsLoop execf nodes edges total order i outputs st).2 = none
      ∧ ∀ m ∈ order, Event.componentStarted m ∈
          (executeComponentsLoop execf nodes edges total order i outputs st).1.events := by
  intro order
  induction order with
  | nil => intro i outputs st _; exact ⟨rfl, by simp⟩
  | cons m rest ih =>
    intro i outputs st h
    obtain ⟨res, hres⟩ := h m (List.mem_cons_self m rest)
      (prepareComponentInput m edges outputs
        ((alookup (nodeMapOf nodes) m).getD { id := m }))
    simp only [executeComponentsLoop, hres]
    obtain ⟨ih1, ih2⟩ := ih (i+1) _ _
      (fun x hx => h x (List.mem_cons_of_mem m hx))
    refine ⟨ih1, ?_⟩
    intro x hx
    rcases List.mem_cons.mp hx with h | h
    · subst h
      apply executeComponentsLoop_events_superset
      simp [addEvent, updateExecutionProgress, updateComponentExecution,
        updateComponentStatus]
    · exact ih2 x h

theorem updateComponentStatus_keeps_prop (st : RunState) (cid s : String)
    (em : Option String) (nid : String) (P : CompRecord → Prop)
    (hne : cid ≠ nid)
    (H : ∀ ce ∈ st.comps, ce.component_id = nid → P ce) :
    ∀ ce ∈ (updateComponentStatus st cid s em).comps,
      ce.component_id = nid → P ce := by
  intro ce hce hid
  simp only [updateComponentStatus, List.mem_map] at hce
  obtain ⟨x, hx, hgx⟩ := hce
  by_cases h : x.component_id = cid
  · simp [h] at hgx
    rw [← hgx] at hid
    simp at hid
    exact absurd hid hne
  · simp [h] at hgx
    exact hgx ▸ H x hx (hgx ▸ hid)

theorem updateComponentExecution_keeps_prop (st : RunState) (cid : String)
    (res : ExecResult) (nid : String) (P : CompRecord → Prop)
    (hne : cid ≠ nid)
    (H : ∀ ce ∈ st.comps, ce.component_id = nid → P ce) :
    ∀ ce ∈ (updateComponentExecution st cid res).comps,
      ce.component_id = nid → P ce := by
  intro ce hce hid
  simp only [updateComponentExecution, List.mem_map] at hce
  obtain ⟨x, hx, hgx⟩ := hce
  by_cases h : x.component_id = cid
  · simp [h] at hgx
    rw [← hgx] at hid
    simp at hid
    exact absurd hid hne
  · simp [h] at hgx
    exact hgx ▸ H x hx (hgx ▸ hid)

theorem executeComponentsLoop_keeps_prop
    (execf : String → Dict → ExecOutcome) (nodes : List Node)
    (edges : List Edge) (total : Nat) (nid : String) (P : CompRecord → Prop) :
    ∀ (order : List String) (i : Nat) (outputs : List (String × Value))
      (st : RunState), nid ∉ order →
      (∀ ce ∈ st.comps, ce.component_id = nid → P ce) →
      ∀ ce ∈ (executeComponentsLoop execf nodes edges total order
          i outputs st).1.comps, ce.component_id = nid → P ce := by
  intro order
  induction order with
  | nil => intro i outputs st _ H; exact H
  | cons m rest ih =>
    intro i outputs st hno H
    have hmn : m ≠ nid := fun h => hno (h ▸ List.mem_cons_self m rest)
    have hno2 : nid ∉ rest := fun h => hno (List.mem_cons_of_mem m h)
    simp only [executeComponentsLoop]
    cases hres : execf m (prepareComponentInput m edges outputs
        ((alookup (nodeMapOf nodes) m).getD { id := m })) with
    | raised err =>
      intro ce hce hid
      simp only [addEvent] at hce
      exact updateComponentStatus_keeps_prop _ m "failed" (some err) nid P hmn
        (fun x hx => by
          simp only [addEvent] at hx
          exact updateComponentStatus_keeps_prop _ m "running" none nid P hmn H x hx)
        ce hce hid
    | result res =>
      apply ih (i+1) _ _ hno2
      intro ce hce hid
      simp only [addEvent, updateExecutionProgress] at hce
      exact updateComponentExecution_keeps_prop _ m res nid P hmn
        (fun x hx => by
          simp only [addEvent] at hx
          exact updateComponentStatus_keeps_prop _ m "running" none nid P hmn H x hx)
        ce hce hid

theorem updateComponentExecution_sets_matching (st : RunState) (cid : String)
    (res : ExecResult) {ce : CompRecord}
    (hce : ce ∈ (updateComponentExecution st cid res).comps)
    (hid : ce.component_id = cid) :
    ce.status = if res.success then "completed" else "failed" := by
  simp only [updateComponentExecution, List.mem_map] at hce
  obtain ⟨x, -, hx⟩ := hce
  by_cases h : x.component_id = cid
  · simp [h] at hx
    rw [← hx]
  · simp [h] at hx
    rw [← hx] at hid
    exact absurd hid h

theorem executeComponentsLoop_failResult_marks_failed
    (execf : String → Dict → ExecOutcome) (nodes : List Node)
    (edges : List Edge) (total : Nat) (nid : String) (resf : ExecResult) :
    ∀ (pre suf : List String) (i : Nat) (outputs : List (String × Value))
      (st : RunState),
      (∀ m ∈ pre, ∀ inp, ∃ res, execf m inp = ExecOutcome.result res) →
      (∀ inp, execf nid inp = ExecOutcome.result resf) →
      resf.success = false →
      nid ∉ pre → nid ∉ suf →
      ∀ ce ∈ (executeComponentsLoop execf nodes edges total
          (pre ++ nid :: suf) i outputs st).1.comps,
        ce.component_id = nid → ce.status = "failed" := by
  intro pre
  induction pre with
  | nil =>
    intro suf i outputs st _ hnid hfail _ hns
    rw [List.nil_append, executeComponentsLoop_cons_of_result execf nodes edges
      total nid suf i outputs st resf (hnid _)]
    apply executeComponentsLoop_keeps_prop execf nodes edges total nid
      (fun ce => ce.status = "failed") suf (i+1) _ _ hns
    intro ce hce hid
    simp only [addEvent, updateExecutionProgress] at hce
    have := updateComponentExecution_sets_matching _ nid resf hce hid
    rwa [hfail, if_neg (by simp)] at this
  | cons m pre ih =>
    intro suf i outputs st hpre hnid hfail hnp hns
    obtain ⟨res, hres⟩ := hpre m (List.mem_cons_self m pre)
      (prepareComponentInput m edges outputs
        ((alookup (nodeMapOf nodes) m).getD { id := m }))
    rw [List.cons_append, executeComponentsLoop_cons_of_result execf nodes edges
      total m (pre ++ nid :: suf) i outputs st res hres]
    exact ih suf (i+1) _ _ (fun x hx => hpre x (List.mem_cons_of_mem m hx))
      hnid hfail (fun h => hnp (List.mem_cons_of_mem m h)) hns

theorem finalizeExecution_failed (st : RunState)
    (h : ∃ ce ∈ st.comps, ce.status ≠ "completed") :
    (finalizeExecution st).record.status = "failed"
    ∧ (finalizeExecution st).record.error_message =
        some "One or more components failed"
    ∧ Event.executionFailed "One or more components failed" ∈
        (finalizeExecution st).events := by
  obtain ⟨ce, hce, hne⟩ := h
  have hall : st.comps.all (fun ce => ce.status = "completed") = false := by
    rw [List.all_eq_false]
    exact ⟨ce, hce, by simpa using hne⟩
  simp [finalizeExecution, hall, addEvent, updateExecutionStatus]

/-- C1 (amended): failure handling distinguishes the two failure modes.  (A)
When a node's executor raises (every earlier node having returned a result),
the loop aborts with that error — execute_flow then marks the record failed
with it — the failing node's record is marked failed with the error, no
component_started notification is emitted beyond the already-executed prefix
and the failing node (later nodes are never started), and the records of
untouched nodes are left as they were.  (B) When executors return results
(even with success=false) the loop never aborts and every node in the order
is started.  (C) A node whose executor returns success=false has its record
marked failed while the loop continues.  (D) At finalization, any
non-completed component record marks the whole execution failed with
"One or more components failed". -/
theorem c1_raise_fail_fast_but_failed_result_continues :
    (∀ (execf : String → Dict → ExecOutcome) (nodes : List Node)
       (edges : List Edge) (total : Nat) (pre suf : List String)
       (nid err : String) (i : Nat) (outputs : List (String × Value))
       (st : RunState),
       (∀ m ∈ pre, ∀ inp, ∃ res, execf m inp = ExecOutcome.result res) →
       (∀ inp, execf nid inp = ExecOutcome.raised err) →
       nid ∉ pre → err ≠ "" →
       (executeComponentsLoop execf nodes edges total (pre ++ nid :: suf)
           i outputs st).2 = some err
       ∧ (∀ ce ∈ (executeComponentsLoop execf nodes edges total
             (pre ++ nid :: suf) i outputs st).1.comps,
           ce.component_id = nid →
           ce.status = "failed" ∧ ce.error_message = some err)
       ∧ (∃ evs, (executeComponentsLoop execf nodes edges total
             (pre ++ nid :: suf) i outputs st).1.events = st.events ++ evs ∧
           ∀ m, Event.componentStarted m ∈ evs → m ∈ pre ∨ m = nid)
       ∧ (∀ ce ∈ st.comps, ce.component_id ∉ pre → ce.component_id ≠ nid →
           ce ∈ (executeComponentsLoop execf nodes edges total
             (pre ++ nid :: suf) i outputs st).1.comps))
  ∧ (∀ (execf : String → Dict → ExecOutcome) (nodes : List Node)
       (edges : List Edge) (total : Nat) (order : List String) (i : Nat)
       (outputs : List (String × Value)) (st : RunState),
       (∀ m ∈ order, ∀ inp, ∃ res, execf m inp = ExecOutcome.result res) →
       (executeComponentsLoop execf nodes edges total order i outputs st).2 = none
       ∧ ∀ m ∈ order, Event.componentStarted m ∈
           (executeComponentsLoop execf nodes edges total order i outputs st).1.events)
  ∧ (∀ (execf : String → Dict → ExecOutcome) (nodes : List Node)
       (edges : List Edge) (total : Nat) (pre suf : List String)
       (nid : String) (resf : ExecResult) (i : Nat)
       (outputs : List (String × Value)) (st : RunState),
       (∀ m ∈ pre, ∀ inp, ∃ res, execf m inp = ExecOutcome.result res) →
       (∀ inp, execf nid inp = ExecOutcome.result resf) →
       resf.success = false → nid ∉ pre → nid ∉ suf →
       ∀ ce ∈ (executeComponentsLoop execf nodes edges total
           (pre ++ nid :: suf) i outputs st).1.comps,
         ce.component_id = nid → ce.status = "failed")
  ∧ (∀ st : RunState, (∃ ce ∈ st.comps, ce.status ≠ "completed") →
       (finalizeExecution st).record.status = "failed"
       ∧ (finalizeExecution st).record.error_message =
           some "One or more components failed"
       ∧ Event.executionFailed "One or more components failed" ∈
           (finalizeExecution st).events) := by
  refine ⟨?_, ?_, ?_, ?_⟩
  · intro execf nodes edges total pre suf nid err i outputs st hpre hnid hnp herr
    obtain ⟨h1, h2, h3, h4⟩ := executeComponentsLoop_raise_spec execf nodes
      edges total err nid pre suf i outputs st hpre hnid hnp
    exact ⟨h1, fun ce hce hid => ⟨(h3 ce hce hid).1, (h3 ce hce hid).2 herr⟩,
      h2, h4⟩
  · intro execf nodes edges total order i outputs st h
    exact executeComponentsLoop_results_spec execf nodes edges total order
      i outputs st h
  · intro execf nodes edges total pre suf nid resf i outputs st hpre hnid
      hfail hnp hns
    exact executeComponentsLoop_failResult_marks_failed execf nodes edges
      total nid resf pre suf i outputs st hpre hnid hfail hnp hns
  · exact finalizeExecution_failed

/-- c1_failure_semantics_witness instantiates the C1 theorem concretely: with
executors A ok / B raising "boom", the two-node loop aborts with "boom" and
marks B failed; with A returning success=false and B succeeding, the loop
finishes and B is still started. -/
theorem c1_failure_semantics_witness :
    ((executeComponentsLoop
        (fun nid _ => if nid = "A"
          then ExecOutcome.result { success := true, output_data := Value.vnull }
          else ExecOutcome.raised "boom")
        [] [] 2 ["A", "B"] 0 [] { record := {} }).2 = some "boom")
  ∧ ((executeComponentsLoop
        (fun nid _ => ExecOutcome.result (if nid = "A"
          then { success := false, output_data := Value.vnull,
                 error_message := some "bad" }
          else { success := true, output_data := Value.vnull }))
        [] [] 2 ["A", "B"] 0 [] { record := {} }).2 = none
     ∧ Event.componentStarted "B" ∈ (executeComponentsLoop
        (fun nid _ => ExecOutcome.result (if nid = "A"
          then { success := false, output_data := Value.vnull,
                 error_message := some "bad" }
          else { success := true, output_data := Value.vnull }))
        [] [] 2 ["A", "B"] 0 [] { record := {} }).1.events) := by
  constructor
  · have := (c1_raise_fail_fast_but_failed_result_continues.1
      (fun nid _ => if nid = "A"
        then ExecOutcome.result { success := true, output_data := Value.vnull }
        else ExecOutcome.raised "boom")
      [] [] 2 ["A"] [] "B" "boom" 0 [] { record := {} }
      (fun m hm inp => ⟨{ success := true, output_data := Value.vnull }, by
        simp at hm
        simp [hm]⟩)
      (fun inp => by simp)
      (by simp) (by simp)).1
    simpa using this
  · have := c1_raise_fail_fast_but_failed_result_continues.2.1
      (fun nid _ => ExecOutcome.result (if nid = "A"
        then { success := false, output_data := Value.vnull,
               error_message := some "bad" }
        else { success := true, output_data := Value.vnull }))
      [] [] 2 ["A", "B"] 0 [] { record := {} }
      (fun m _ inp => ⟨_, rfl⟩)
    exact ⟨this.1, this.2 "B" (by simp)⟩

/-- c1_counterexample refutes C1 as stated: in a two-node flow where node A's
executor returns success=false and node B's succeeds, node B — later in the
execution order — is still started and completes (the claim says no later
node is ever started), while A is marked failed and the record is marked
failed only at finalization. -/
theorem c1_counterexample :
    (executeFlow [{ id := "A" }, { id := "B" }] []
        (fun nid _ => ExecOutcome.result (if nid = "A"
          then { success := false, output_data := Value.vnull,
                 error_message := some "A broke" }
          else { success := true, output_data := Value.vnull }))).record.status
      = "failed"
  ∧ Event.componentStarted "B" ∈ (executeFlow [{ id := "A" }, { id := "B" }] []
        (fun nid _ => ExecOutcome.result (if nid = "A"
          then { success := false, output_data := Value.vnull,
                 error_message := some "A broke" }
          else { success := true, output_data := Value.vnull }))).events
  ∧ ((executeFlow [{ id := "A" }, { id := "B" }] []
        (fun nid _ => ExecOutcome.result (if nid = "A"
          then { success := false, output_data := Value.vnull,
                 error_message := some "A broke" }
          else { success := true, output_data := Value.vnull }))).comps.map
      (fun ce => (ce.component_id, ce.status)))
      = [("A", "failed"), ("B", "completed")] := by
  refine ⟨?_, ?_, ?_⟩ <;> decide

/-! Lemmas about the binary64 rounding model. -/

theorem rheInt_eq_or (a : Int) (b : Nat) :
    rheInt a b = a / (b : Int) ∨ rheInt a b = a / (b : Int) + 1 := by
  rw [rheInt]
  split
  · exact Or.inl rfl
  split
  · exact Or.inr rfl
  split
  · exact Or.inl rfl
  · exact Or.inr rfl

theorem rheInt_ge (a : Int) (b : Nat) : a / (b : Int) ≤ rheInt a b := by
  rcases rheInt_eq_or a b with h | h <;> omega

theorem rheInt_le (a : Int) (b : Nat) : rheInt a b ≤ a / (b : Int) + 1 := by
  rcases rheInt_eq_or a b with h | h <;> omega

theorem rheInt_nonneg {a : Int} (b : Nat) (ha : 0 ≤ a) : 0 ≤ rheInt a b := by
  have h : 0 ≤ a / (b : Int) := Int.ediv_nonneg ha (by positivity)
  have := rheInt_ge a b
  omega

theorem rheInt_mono (a₁ a₂ : Int) (b₁ b₂ : Nat) (hb₁ : 0 < b₁) (hb₂ : 0 < b₂)
    (h : a₁ * b₂ ≤ a₂ * b₁) : rheInt a₁ b₁ ≤ rheInt a₂ b₂ := by
  have hb₁i : (0 : Int) < b₁ := by exact_mod_cast hb₁
  have hb₂i : (0 : Int) < b₂ := by exact_mod_cast hb₂
  have e₁ : (b₁ : Int) * (a₁ / b₁) + a₁ % b₁ = a₁ := Int.ediv_add_emod a₁ b₁
  have e₂ : (b₂ : Int) * (a₂ / b₂) + a₂ % b₂ = a₂ := Int.ediv_add_emod a₂ b₂
  have hr₁0 : 0 ≤ a₁ % (b₁ : Int) := Int.emod_nonneg a₁ (by omega)
  have hr₂0 : 0 ≤ a₂ % (b₂ : Int) := Int.emod_nonneg a₂ (by omega)
  have hf : a₁ / (b₁ : Int) ≤ a₂ / (b₂ : Int) := by
    rw [Int.le_ediv_iff_mul_le hb₂i]
    have h1 : a₁ / (b₁ : Int) * b₂ * b₁ ≤ a₂ * b₁ := by
      have h2 : (b₁ : Int) * (a₁ / b₁) ≤ a₁ := by omega
      calc a₁ / (b₁ : Int) * b₂ * b₁ = ((b₁ : Int) * (a₁ / b₁)) * b₂ := by ring
        _ ≤ a₁ * b₂ := mul_le_mul_of_nonneg_right h2 (le_of_lt hb₂i)
        _ ≤ a₂ * b₁ := h
    exact le_of_mul_le_mul_right h1 hb₁i
  rcases lt_or_eq_of_le hf with hlt | heq
  · calc rheInt a₁ b₁ ≤ a₁ / (b₁ : Int) + 1 := rheInt_le a₁ b₁
      _ ≤ a₂ / (b₂ : Int) := by omega
      _ ≤ rheInt a₂ b₂ := rheInt_ge a₂ b₂
  · have hr : (a₁ % (b₁ : Int)) * b₂ ≤ (a₂ % (b₂ : Int)) * b₁ := by
      have h2 : a₁ * (b₂ : Int) =
          (b₁ : Int) * (a₁ / b₁) * b₂ + (a₁ % b₁) * b₂ := by
        linear_combination (-(b₂ : Int)) * e₁
      have h3 : a₂ * (b₁ : Int) =
          (b₂ : Int) * (a₂ / b₂) * b₁ + (a₂ % b₂) * b₁ := by
        linear_combination (-(b₁ : Int)) * e₂
      have h4 : (b₁ : Int) * (a₁ / b₁) * b₂ = (b₂ : Int) * (a₂ / b₂) * b₁ := by
        rw [heq]; ring
      omega
    by_cases h₁ : 2 * (a₁ % (b₁ : Int)) < (b₁ : Int)
    · rw [rheInt, if_pos h₁, heq]
      exact rheInt_ge a₂ b₂
    · by_cases h₂ : (b₁ : Int) < 2 * (a₁ % (b₁ : Int))
      · have hgt : (b₂ : Int) < 2 * (a₂ % (b₂ : Int)) := by
          have h3 : (b₁ : Int) * b₂ < 2 * (a₁ % (b₁ : Int)) * b₂ :=
            mul_lt_mul_of_pos_right h₂ hb₂i
          have h4 : 2 * (a₁ % (b₁ : Int)) * b₂ ≤ 2 * (a₂ % (b₂ : Int)) * b₁ := by
            have := mul_le_mul_of_nonneg_left hr (by norm_num : (0:Int) ≤ 2)
            calc 2 * (a₁ % (b₁ : Int)) * b₂ = 2 * ((a₁ % (b₁ : Int)) * b₂) := by ring
              _ ≤ 2 * ((a₂ % (b₂ : Int)) * b₁) := this
              _ = 2 * (a₂ % (b₂ : Int)) * b₁ := by ring
          have h5 : (b₂ : Int) * b₁ < 2 * (a₂ % (b₂ : Int)) * b₁ := by
            calc (b₂ : Int) * b₁ = (b₁ : Int) * b₂ := by ring
              _ < 2 * (a₁ % (b₁ : Int)) * b₂ := h3
              _ ≤ 2 * (a₂ % (b₂ : Int)) * b₁ := h4
          exact lt_of_mul_lt_mul_right h5 (le_of_lt hb₁i)
        rw [rheInt, if_neg h₁, if_pos h₂, rheInt, if_neg (by omega), if_pos hgt,
          heq]
      · have ht : 2 * (a₁ % (b₁ : Int)) = (b₁ : Int) := by omega
        have hge : (b₂ : Int) ≤ 2 * (a₂ % (b₂ : Int)) := by
          have h4 : (b₁ : Int) * b₂ ≤ 2 * (a₂ % (b₂ : Int)) * b₁ := by
            calc (b₁ : Int) * b₂ = 2 * (a₁ % (b₁ : Int)) * b₂ := by rw [ht]
              _ = 2 * ((a₁ % (b₁ : Int)) * b₂) := by ring
              _ ≤ 2 * ((a₂ % (b₂ : Int)) * b₁) :=
                  mul_le_mul_of_nonneg_left hr (by norm_num)
              _ = 2 * (a₂ % (b₂ : Int)) * b₁ := by ring
          have h5 : (b₂ : Int) * b₁ ≤ 2 * (a₂ % (b₂ : Int)) * b₁ := by
            calc (b₂ : Int) * b₁ = (b₁ : Int) * b₂ := by ring
              _ ≤ 2 * (a₂ % (b₂ : Int)) * b₁ := h4
          exact le_of_mul_le_mul_right h5 hb₁i
        by_cases hp : (a₁ / (b₁ : Int)) % 2 = 0
        · rw [rheInt, if_neg h₁, if_neg h₂, if_pos hp, heq]
          exact rheInt_ge a₂ b₂
        · rcases lt_or_eq_of_le hge with hgt | htie
          · rw [rheInt, if_neg h₁, if_neg h₂, if_neg hp, rheInt,
              if_neg (by omega), if_pos hgt, heq]
          · rw [rheInt, if_neg h₁, if_neg h₂, if_neg hp, rheInt,
              if_neg (by omega), if_neg (by omega), ← heq, if_neg hp]

theorem sclAux_spec (num : Int) (den : Nat) :
    ∀ (fuel s : Nat), (den : Int) * 2^52 ≤ num * 2^(s + fuel) →
      ((den : Int) * 2^52 ≤ num * 2^(sclAux num den fuel s)
       ∧ s ≤ sclAux num den fuel s
       ∧ ∀ t, s ≤ t → t < sclAux num den fuel s →
           ¬((den : Int) * 2^52 ≤ num * 2^t)) := by
  intro fuel
  induction fuel with
  | zero =>
    intro s h
    simp only [sclAux]
    exact ⟨by simpa using h, le_refl s,
      fun t h1 h2 => absurd (Nat.lt_of_le_of_lt h1 h2) (lt_irrefl s)⟩
  | succ fuel ih =>
    intro s h
    rw [sclAux]
    by_cases hc : (den : Int) * 2^52 ≤ num * 2^s
    · rw [if_pos hc]
      exact ⟨hc, le_refl s, fun t h1 h2 => by omega⟩
    · rw [if_neg hc]
      have hexp : s + 1 + fuel = s + (fuel + 1) := by omega
      obtain ⟨ha, hb, hm⟩ := ih (s+1) (by rw [hexp]; exact h)
      refine ⟨ha, by omega, fun t h1 ht => ?_⟩
      rcases eq_or_lt_of_le h1 with rfl | h3
      · exact hc
      · exact hm t (by omega) ht

theorem flScale_cond (q : ℚ) (hq : 0 < q.num) :
    (q.den : Int) * 2^52 ≤ q.num * 2^(flScale q)
    ∧ ∀ t < flScale q, ¬((q.den : Int) * 2^52 ≤ q.num * 2^t) := by
  have hnum : (1 : Int) ≤ q.num := hq
  have hfuel : (q.den : Int) * 2^52 ≤ q.num * 2^(0 + (52 + q.den)) := by
    have hden : (q.den : Int) ≤ 2^q.den := by
      exact_mod_cast (Nat.lt_two_pow q.den).le
    calc (q.den : Int) * 2^52 ≤ 2^q.den * 2^52 :=
          mul_le_mul_of_nonneg_right hden (by positivity)
      _ = 1 * 2^(0 + (52 + q.den)) := by rw [← pow_add]; ring_nf
      _ ≤ q.num * 2^(0 + (52 + q.den)) :=
          mul_le_mul_of_nonneg_right hnum (by positivity)
  obtain ⟨ha, -, hm⟩ := sclAux_spec q.num q.den (52 + q.den) 0 hfuel
  exact ⟨ha, fun t ht => hm t (Nat.zero_le t) ht⟩

theorem fl_eq (q : ℚ) (hq : 0 < q.num) :
    fl q = mkRat (rheInt (q.num * 2 ^ flScale q) q.den) (2 ^ flScale q) := by
  rw [fl, if_neg (not_le.mpr hq)]

theorem fl_nonneg (q : ℚ) : 0 ≤ fl q := by
  rw [fl]
  split
  · exact le_refl 0
  · rename_i hq
    rw [Rat.mkRat_eq_div]
    have h0 : (0 : Int) ≤ q.num * 2 ^ flScale q :=
      mul_nonneg (by omega) (by positivity)
    have h1 : 0 ≤ rheInt (q.num * 2 ^ flScale q) q.den := rheInt_nonneg q.den h0
    exact div_nonneg (by exact_mod_cast h1) (by positivity)

theorem rat_le_iff_cross {q₁ q₂ : ℚ} :
    q₁ ≤ q₂ ↔ q₁.num * (q₂.den : Int) ≤ q₂.num * (q₁.den : Int) := by
  constructor
  · intro h
    have h1 : (q₁.num : ℚ) / q₁.den ≤ (q₂.num : ℚ) / q₂.den := by
      rwa [Rat.num_div_den, Rat.num_div_den]
    have h2 : (q₁.num : ℚ) * q₂.den ≤ (q₂.num : ℚ) * q₁.den := by
      rw [div_le_div_iff (by exact_mod_cast q₁.den_pos)
        (by exact_mod_cast q₂.den_pos)] at h1
      exact h1
    exact_mod_cast h2
  · intro h
    have h2 : (q₁.num : ℚ) * q₂.den ≤ (q₂.num : ℚ) * q₁.den := by exact_mod_cast h
    have h1 : (q₁.num : ℚ) / q₁.den ≤ (q₂.num : ℚ) / q₂.den := by
      rw [div_le_div_iff (by exact_mod_cast q₁.den_pos)
        (by exact_mod_cast q₂.den_pos)]
      exact h2
    rwa [Rat.num_div_den, Rat.num_div_den] at h1

theorem flScale_le_of_le {q₁ q₂ : ℚ} (hq₁ : 0 < q₁.num) (hq₂ : 0 < q₂.num)
    (h : q₁ ≤ q₂) : flScale q₂ ≤ flScale q₁ := by
  by_contra hcon
  push_neg at hcon
  have hmin := (flScale_cond q₂ hq₂).2 (flScale q₁) hcon
  apply hmin
  have hcross : q₁.num * (q₂.den : Int) ≤ q₂.num * (q₁.den : Int) :=
    rat_le_iff_cross.mp h
  have hc₁ := (flScale_cond q₁ hq₁).1
  have hd₁ : (0 : Int) < q₁.den := by exact_mod_cast q₁.den_pos
  have hd₂ : (0 : Int) < q₂.den := by exact_mod_cast q₂.den_pos
  have step1 : (q₂.den : Int) * 2^52 * q₁.den ≤ q₂.num * 2^(flScale q₁) * q₁.den := by
    calc (q₂.den : Int) * 2^52 * q₁.den = ((q₁.den : Int) * 2^52) * q₂.den := by ring
      _ ≤ (q₁.num * 2^(flScale q₁)) * q₂.den :=
          mul_le_mul_of_nonneg_right hc₁ (le_of_lt hd₂)
      _ = (q₁.num * q₂.den) * 2^(flScale q₁) := by ring
      _ ≤ (q₂.num * q₁.den) * 2^(flScale q₁) :=
          mul_le_mul_of_nonneg_right hcross (by positivity)
      _ = q₂.num * 2^(flScale q₁) * q₁.den := by ring
  exact le_of_mul_le_mul_right step1 hd₁

theorem fl_mono {q₁ q₂ : ℚ} (h : q₁ ≤ q₂) : fl q₁ ≤ fl q₂ := by
  by_cases hq₁ : q₁.num ≤ 0
  · rw [fl, if_pos hq₁]
    exact fl_nonneg q₂
  · push_neg at hq₁
    have hq₂ : 0 < q₂.num := by
      rw [Rat.num_pos] at hq₁ ⊢
      exact lt_of_lt_of_le hq₁ h
    have hd₁ : (0 : Int) < q₁.den := by exact_mod_cast q₁.den_pos
    have hd₂ : (0 : Int) < q₂.den := by exact_mod_cast q₂.den_pos
    have hcross : q₁.num * (q₂.den : Int) ≤ q₂.num * (q₁.den : Int) :=
      rat_le_iff_cross.mp h
    have hs : flScale q₂ ≤ flScale q₁ := flScale_le_of_le hq₁ hq₂ h
    rw [fl_eq q₁ hq₁, fl_eq q₂ hq₂, Rat.mkRat_eq_div, Rat.mkRat_eq_div]
    push_cast
    rcases eq_or_lt_of_le hs with hseq | hslt
    · rw [hseq]
      have hcross2 : (q₁.num * 2^flScale q₁) * q₂.den ≤
          (q₂.num * 2^flScale q₁) * q₁.den := by
        calc (q₁.num * 2^flScale q₁) * q₂.den
            = (q₁.num * q₂.den) * 2^flScale q₁ := by ring
          _ ≤ (q₂.num * q₁.den) * 2^flScale q₁ :=
              mul_le_mul_of_nonneg_right hcross (by positivity)
          _ = (q₂.num * 2^flScale q₁) * q₁.den := by ring
      have hm : rheInt (q₁.num * 2^flScale q₁) q₁.den ≤
          rheInt (q₂.num * 2^flScale q₁) q₂.den :=
        rheInt_mono _ _ _ _ q₁.den_pos q₂.den_pos hcross2
      have hmq : ((rheInt (q₁.num * 2^flScale q₁) q₁.den : Int) : ℚ) ≤
          ((rheInt (q₂.num * 2^flScale q₁) q₂.den : Int) : ℚ) := by
        exact_mod_cast hm
      exact div_le_div_of_nonneg_right hmq (by positivity)
    · obtain ⟨t, ht⟩ : ∃ t, flScale q₁ = t + 1 := ⟨flScale q₁ - 1, by omega⟩
      have hupper : ((rheInt (q₁.num * 2^flScale q₁) q₁.den : Int) : ℚ) /
          2^flScale q₁ ≤ (2^53 : ℚ) / 2^flScale q₁ := by
        have hmin : ¬((q₁.den : Int) * 2^52 ≤ q₁.num * 2^t) :=
          (flScale_cond q₁ hq₁).2 t (by omega)
        have hlt : q₁.num * 2^t < (q₁.den : Int) * 2^52 := not_le.mp hmin
        have hf : (q₁.num * 2^flScale q₁) / (q₁.den : Int) < 2^53 := by
          rw [Int.ediv_lt_iff_lt_mul hd₁, ht]
          calc q₁.num * 2^(t+1) = (q₁.num * 2^t) * 2 := by ring
            _ < ((q₁.den : Int) * 2^52) * 2 := by omega
            _ = 2^53 * q₁.den := by ring
        have hm : rheInt (q₁.num * 2^flScale q₁) q₁.den ≤ 2^53 := by
          have := rheInt_le (q₁.num * 2^flScale q₁) q₁.den
          omega
        apply div_le_div_of_nonneg_right ?_ (by positivity)
        exact_mod_cast hm
      have hlower : (2^52 : ℚ) / 2^flScale q₂ ≤
          ((rheInt (q₂.num * 2^flScale q₂) q₂.den : Int) : ℚ) /
            2^flScale q₂ := by
        have hcond : (q₂.den : Int) * 2^52 ≤ q₂.num * 2^flScale q₂ :=
          (flScale_cond q₂ hq₂).1
        have hf : (2^52 : Int) ≤ (q₂.num * 2^flScale q₂) / (q₂.den : Int) := by
          rw [Int.le_ediv_iff_mul_le hd₂]
          calc (2^52 : Int) * q₂.den = (q₂.den : Int) * 2^52 := by ring
            _ ≤ q₂.num * 2^flScale q₂ := hcond
        have hm : (2^52 : Int) ≤ rheInt (q₂.num * 2^flScale q₂) q₂.den := by
          have := rheInt_ge (q₂.num * 2^flScale q₂) q₂.den
          omega
        apply div_le_div_of_nonneg_right ?_ (by positivity)
        exact_mod_cast hm
      have hbridge : (2^53 : ℚ) / 2^flScale q₁ ≤ (2^52 : ℚ) / 2^flScale q₂ := by
        rw [div_le_div_iff (by positivity) (by positivity), ← pow_add, ← pow_add]
        exact pow_le_pow_right (by norm_num) (by omega)
      calc ((rheInt (q₁.num * 2^flScale q₁) q₁.den : Int) : ℚ) / 2^flScale q₁
          ≤ (2^53 : ℚ) / 2^flScale q₁ := hupper
        _ ≤ (2^52 : ℚ) / 2^flScale q₂ := hbridge
        _ ≤ ((rheInt (q₂.num * 2^flScale q₂) q₂.den : Int) : ℚ) /
              2^flScale q₂ := hlower

theorem mulNat_eq (q : ℚ) (n : Nat) : mulNat q n = q * n := by
  rw [mulNat, Rat.mkRat_eq_div]
  push_cast
  rw [mul_div_right_comm, Rat.num_div_den]

theorem fl_one : fl 1 = 1 := by decide

theorem fl_hundred : fl 100 = 100 := by decide

theorem rat_floor_eq_floor (q : ℚ) : Rat.floor q = ⌊q⌋ :=
  (Rat.floor_def' q).trans Rat.floor_def.symm

theorem pyProgress_nonneg (k N : Nat) : 0 ≤ pyProgress k N := by
  rw [pyProgress, rat_floor_eq_floor]
  rw [Int.le_floor]
  exact_mod_cast fl_nonneg _

theorem pyProgress_le_100 (k N : Nat) (hN : 0 < N) (hk : k ≤ N) :
    pyProgress k N ≤ 100 := by
  rw [pyProgress, rat_floor_eq_floor]
  have h1 : mkRat k N ≤ 1 := by
    rw [Rat.mkRat_eq_div]
    rw [div_le_one (by exact_mod_cast hN)]
    exact_mod_cast hk
  have h2 : fl (mkRat k N) ≤ 1 := by
    calc fl (mkRat k N) ≤ fl 1 := fl_mono h1
      _ = 1 := fl_one
  have h3 : mulNat (fl (mkRat k N)) 100 ≤ 100 := by
    rw [mulNat_eq]
    calc fl (mkRat (k : Int) N) * (100 : Nat) ≤ 1 * (100 : Nat) :=
        mul_le_mul_of_nonneg_right h2 (by norm_num)
      _ = 100 := by norm_num
  have h4 : fl (mulNat (fl (mkRat k N)) 100) ≤ 100 := by
    calc fl (mulNat (fl (mkRat k N)) 100) ≤ fl 100 := fl_mono h3
      _ = 100 := fl_hundred
  calc ⌊fl (mulNat (fl (mkRat (k : Int) N)) 100)⌋ ≤ ⌊(100 : ℚ)⌋ :=
      Int.floor_le_floor h4
    _ = 100 := by norm_num

theorem pyProgress_mono (k₁ k₂ N : Nat) (h : k₁ ≤ k₂) :
    pyProgress k₁ N ≤ pyProgress k₂ N := by
  rw [pyProgress, pyProgress, rat_floor_eq_floor, rat_floor_eq_floor]
  apply Int.floor_le_floor
  apply fl_mono
  have h1 : mkRat k₁ N ≤ mkRat k₂ N := by
    rw [Rat.mkRat_eq_div, Rat.mkRat_eq_div]
    rcases Nat.eq_zero_or_pos N with rfl | hN
    · simp
    · have hNq : (0 : ℚ) < (N : ℚ) := by exact_mod_cast hN
      exact div_le_div_of_nonneg_right (by exact_mod_cast h) hNq.le
  rw [mulNat_eq, mulNat_eq]
  exact mul_le_mul_of_nonneg_right (fl_mono h1) (by norm_num)

theorem pyProgress_full (N : Nat) (hN : 0 < N) : pyProgress N N = 100 := by
  rw [pyProgress]
  have h1 : mkRat (N : Int) N = 1 := by
    rw [Rat.mkRat_eq_div]
    push_cast
    rw [div_self (by exact_mod_cast hN.ne.symm : ((N : ℚ)) ≠ 0)]
  rw [h1, fl_one, show mulNat 1 100 = 100 from by rw [mulNat_eq]; norm_num,
    fl_hundred]
  decide

theorem progressValues_loop
    (execf : String → Dict → ExecOutcome) (nodes : List Node)
    (edges : List Edge) (total : Nat) :
    ∀ (order : List String) (i : Nat) (outputs : List (String × Value))
      (st : RunState),
      (∀ m ∈ order, ∀ inp, ∃ res, execf m inp = ExecOutcome.result res) →
      progressValues (executeComponentsLoop execf nodes edges total order
          i outputs st).1.events
        = progressValues st.events ++
            (List.range order.length).map (fun k => pyProgress (i + k + 1) total) := by
  intro order
  induction order with
  | nil => intro i outputs st _; simp [executeComponentsLoop]
  | cons m rest ih =>
    intro i outputs st h
    obtain ⟨res, hres⟩ := h m (List.mem_cons_self m rest)
      (prepareComponentInput m edges outputs
        ((alookup (nodeMapOf nodes) m).getD { id := m }))
    rw [executeComponentsLoop_cons_of_result execf nodes edges total m rest
      i outputs st res hres]
    rw [ih (i+1) _ _ (fun x hx => h x (List.mem_cons_of_mem m hx))]
    have hst3 : progressValues (addEvent (updateExecutionProgress (addEvent
        (updateComponentExecution (addEvent
          (updateComponentStatus st m "running" none)
          (Event.componentStarted m)) m res)
        (Event.componentCompleted m)) (i+1) total)
        (Event.executionProgress (pyProgress (i+1) total))).events
        = progressValues st.events ++ [pyProgress (i+1) total] := by
      simp [addEvent, updateExecutionProgress, updateComponentExecution,
        updateComponentStatus, progressValues, List.filterMap_append]
    rw [hst3]
    rw [List.append_assoc]
    congr 1
    rw [List.length_cons, List.range_succ_eq_map, List.map_cons, List.map_map]
    rw [List.singleton_append]
    congr 1
    apply List.map_congr_left
    intro k _
    simp only [Function.comp_apply, Nat.succ_eq_add_one]
    have harg : i + 1 + k + 1 = i + (k + 1) + 1 := by omega
    rw [harg]

/-- C8 (amended): in a flow of N ≥ 1 nodes whose executors all return
results, the emitted progress sequence is exactly pyProgress k N for
k = 1..N, where pyProgress is the double-precision evaluation
int(((k/N))·100) — two correctly rounded binary64 operations followed by
truncation — which can fall one below the exact ⌊(k/N)·100⌋ (at N = 50,
k = 29 the emitted value is 57, not 58); each emitted value is an integer in
0..100, the sequence is non-decreasing, and the final value is 100. -/
theorem c8_progress_values_are_float_truncations :
    (∀ (execf : String → Dict → ExecOutcome) (nodes : List Node)
       (edges : List Edge) (order : List String) (st : RunState),
       (∀ m ∈ order, ∀ inp, ∃ res, execf m inp = ExecOutcome.result res) →
       progressValues (executeComponentsLoop execf nodes edges order.length
           order 0 [] st).1.events
         = progressValues st.events ++
             (List.range order.length).map
               (fun k => pyProgress (k + 1) order.length))
  ∧ (∀ k N : Nat, 0 < N → k ≤ N →
       0 ≤ pyProgress k N ∧ pyProgress k N ≤ 100)
  ∧ (∀ k₁ k₂ N : Nat, k₁ ≤ k₂ → pyProgress k₁ N ≤ pyProgress k₂ N)
  ∧ (∀ N : Nat, 0 < N → pyProgress N N = 100) := by
  refine ⟨?_, ?_, ?_, ?_⟩
  · intro execf nodes edges order st h
    have := progressValues_loop execf nodes edges order.length order 0 [] st h
    simpa using this
  · intro k N hN hk
    exact ⟨pyProgress_nonneg k N, pyProgress_le_100 k N hN hk⟩
  · intro k₁ k₂ N h
    exact pyProgress_mono k₁ k₂ N h
  · intro N hN
    exact pyProgress_full N hN

/-- c8_progress_witness instantiates the C8 theorem on a concrete three-node
flow with all-succeeding executors: the emitted progress sequence is
pyProgress 1 3, pyProgress 2 3, pyProgress 3 3 = 33, 66, 100, within range,
non-decreasing and ending at 100. -/
theorem c8_progress_witness :
    progressValues (executeComponentsLoop
        (fun _ _ => ExecOutcome.result { success := true, output_data := Value.vnull })
        [] [] 3 ["A", "B", "C"] 0 [] { record := {} }).1.events
      = [pyProgress 1 3, pyProgress 2 3, pyProgress 3 3]
  ∧ (0 ≤ pyProgress 2 3 ∧ pyProgress 2 3 ≤ 100)
  ∧ pyProgress 1 3 ≤ pyProgress 2 3
  ∧ pyProgress 3 3 = 100 := by
  refine ⟨?_, c8_progress_values_are_float_truncations.2.1 2 3 (by norm_num)
      (by norm_num),
    c8_progress_values_are_float_truncations.2.2.1 1 2 3 (by norm_num),
    c8_progress_values_are_float_truncations.2.2.2 3 (by norm_num)⟩
  have := c8_progress_values_are_float_truncations.1
    (fun _ _ => ExecOutcome.result { success := true, output_data := Value.vnull })
    [] [] ["A", "B", "C"] { record := {} }
    (fun m _ inp => ⟨_, rfl⟩)
  simpa [progressValues, List.range_succ] using this

set_option maxRecDepth 40000 in
/-- c8_counterexample refutes C8 as stated: in a concrete 50-node flow whose
executors all succeed, the 29th emitted progress value is 57, while
⌊(29/50)·100⌋ = 58 — the double-precision computation
int((29/50)*100) truncates to 57 because 29/50 rounds to a binary64 value
just below 0.58. -/
theorem c8_counterexample :
    (progressValues c8run.events).get? 28 = some 57
  ∧ ((28 + 1) * 100 : Int) / 50 = 58 := by
  constructor <;> decide

/-! Lemmas about the set and registry primitives of the process manager. -/

theorem mem_insertSorted {l : List Nat} {x y : Nat} :
    x ∈ insertSorted l y ↔ x = y ∨ x ∈ l := by
  induction l with
  | nil => simp [insertSorted]
  | cons z rest ih =>
    rw [insertSorted]
    by_cases h1 : y = z
    · subst h1
      rw [if_pos rfl]
      constructor
      · exact Or.inr
      · rintro (rfl | h)
        · exact List.mem_cons_self x rest
        · exact h
    · rw [if_neg h1]
      by_cases h2 : y < z
      · rw [if_pos h2]
        simp [List.mem_cons]
      · rw [if_neg h2]
        simp only [List.mem_cons, ih]
        tauto

theorem sorted_insertSorted {l : List Nat} (hl : List.Sorted (· < ·) l)
    (y : Nat) : List.Sorted (· < ·) (insertSorted l y) := by
  induction l with
  | nil => simp [insertSorted]
  | cons z rest ih =>
    rw [List.sorted_cons] at hl
    rw [insertSorted]
    by_cases h1 : y = z
    · subst h1
      rw [if_pos rfl]
      exact List.sorted_cons.mpr hl
    · rw [if_neg h1]
      by_cases h2 : y < z
      · rw [if_pos h2]
        refine List.sorted_cons.mpr ⟨?_, List.sorted_cons.mpr hl⟩
        intro b hb
        rcases List.mem_cons.mp hb with rfl | hb
        · exact h2
        · exact lt_trans h2 (hl.1 b hb)
      · rw [if_neg h2]
        refine List.sorted_cons.mpr ⟨?_, ih hl.2⟩
        intro b hb
        rcases mem_insertSorted.mp hb with rfl | hb
        · omega
        · exact hl.1 b hb

theorem mem_setDiscard {l : List Nat} {x y : Nat} :
    x ∈ setDiscard l y ↔ x ∈ l ∧ x ≠ y := by
  simp [setDiscard, List.mem_filter]

theorem sorted_setDiscard {l : List Nat} (hl : List.Sorted (· < ·) l)
    (y : Nat) : List.Sorted (· < ·) (setDiscard l y) :=
  List.Pairwise.filter _ hl

theorem mem_aset_cases {β : Type} {l : List (String × β)} {k : String}
    {v : β} {e : String × β} (h : e ∈ aset l k v) :
    e = (k, v) ∨ e ∈ l := by
  induction l with
  | nil => simpa [aset] using h
  | cons hd rest ih =>
    rw [aset] at h
    by_cases hk : hd.1 = k
    · rw [show (hd.1, hd.2) = hd from rfl] at h
      simp [hk] at h
      rcases h with h | h
      · left
        rw [h]
      · right
        exact List.mem_cons_of_mem hd h
    · rw [show (hd.1, hd.2) = hd from rfl] at h
      simp [hk] at h
      rcases h with h | h
      · right
        simp [h]
      · rcases ih h with h2 | h2
        · exact Or.inl h2
        · exact Or.inr (List.mem_cons_of_mem hd h2)

theorem alookup_aset {β : Type} (l : List (String × β)) (k : String) (v : β) :
    alookup (aset l k v) k = some v := by
  induction l with
  | nil => simp [aset, alookup]
  | cons hd rest ih =>
    rw [aset]
    by_cases hk : hd.1 = k
    · rw [show (hd.1, hd.2) = hd from rfl, if_pos hk]
      simp [alookup]
    · rw [show (hd.1, hd.2) = hd from rfl, if_neg hk]
      simp [alookup, hk, ih]

theorem alookup_mem {β : Type} {l : List (String × β)} {k : String} {v : β}
    (h : alookup l k = some v) : (k, v) ∈ l := by
  induction l with
  | nil => simp [alookup] at h
  | cons hd rest ih =>
    rw [alookup] at h
    by_cases hk : hd.1 = k
    · rw [if_pos hk] at h
      have hv : hd.2 = v := Option.some.inj h
      have he : hd = (k, v) := by rw [← hk, ← hv]
      rw [← he]
      exact List.mem_cons_self hd rest
    · rw [if_neg hk] at h
      exact List.mem_cons_of_mem hd (ih h)

theorem mem_eraseKey_cases {l : List (String × FlowProcess)} {k : String}
    {e : String × FlowProcess} (h : e ∈ eraseKey l k) : e ∈ l ∧ e.1 ≠ k := by
  simpa [eraseKey, List.mem_filter] using h

theorem poolInv_init (basePort maxProcesses : Nat) :
    PoolInv basePort maxProcesses (initPMState basePort maxProcesses) := by
  refine ⟨?_, ?_, ?_, ?_, ?_⟩
  · intro p
    simp [initPMState, List.mem_range'_1]
  · intro p
    simp [initPMState]
  · simp only [initPMState]
    exact List.pairwise_lt_range' basePort maxProcesses
  · simp [initPMState]
  · intro e he
    simp [initPMState] at he

theorem poolInv_restore (b c port : Nat) (poolRest used : List Nat)
    (procs2 : List (String × FlowProcess))
    (hpart : ∀ p : Nat, (p ∈ port :: poolRest ∨ p ∈ used) ↔ b ≤ p ∧ p < b + c)
    (hdisj : ∀ p : Nat, ¬(p ∈ port :: poolRest ∧ p ∈ used))
    (hps : List.Sorted (· < ·) (port :: poolRest))
    (hus : List.Sorted (· < ·) used)
    (hproc2 : ∀ e ∈ procs2, b ≤ e.2.port ∧ e.2.port < b + c) :
    PoolInv b c ⟨insertSorted poolRest port,
      setDiscard (insertSorted used port) port, procs2⟩ := by
  have hports : b ≤ port ∧ port < b + c :=
    (hpart port).mp (Or.inl (List.mem_cons_self port poolRest))
  refine ⟨?_, ?_, ?_, ?_, hproc2⟩
  · intro p
    simp only [mem_insertSorted, mem_setDiscard]
    constructor
    · rintro (⟨rfl | hp⟩ | ⟨hp, hne⟩)
      · exact hports
      · exact (hpart p).mp (Or.inl (List.mem_cons_of_mem port hp))
      · rcases hp with rfl | hp
        · exact absurd rfl hne
        · exact (hpart p).mp (Or.inr hp)
    · intro hr
      rcases (hpart p).mpr hr with hp | hp
      · rcases List.mem_cons.mp hp with rfl | hp
        · exact Or.inl (Or.inl rfl)
        · exact Or.inl (Or.inr hp)
      · by_cases hne : p = port
        · exact Or.inl (Or.inl hne)
        · exact Or.inr ⟨Or.inr hp, hne⟩
  · intro p
    simp only [mem_insertSorted, mem_setDiscard]
    rintro ⟨hp1, ⟨hp2, hne⟩⟩
    rcases hp1 with rfl | hp1
    · exact hne rfl
    · rcases hp2 with rfl | hp2
      · rw [List.sorted_cons] at hps
        exact absurd hp1 (by
          intro hmem
          exact lt_irrefl p (hps.1 p hmem))
      · exact hdisj p ⟨List.mem_cons_of_mem port hp1, hp2⟩
  · exact sorted_insertSorted (List.sorted_cons.mp hps).2 port
  · exact sorted_setDiscard (sorted_insertSorted hus port) port

theorem poolInv_take (b c port : Nat) (poolRest used : List Nat)
    (procs2 : List (String × FlowProcess))
    (hpart : ∀ p : Nat, (p ∈ port :: poolRest ∨ p ∈ used) ↔ b ≤ p ∧ p < b + c)
    (hdisj : ∀ p : Nat, ¬(p ∈ port :: poolRest ∧ p ∈ used))
    (hps : List.Sorted (· < ·) (port :: poolRest))
    (hus : List.Sorted (· < ·) used)
    (hproc2 : ∀ e ∈ procs2, b ≤ e.2.port ∧ e.2.port < b + c) :
    PoolInv b c ⟨poolRest, insertSorted used port, procs2⟩ := by
  have hnp : port ∉ poolRest := by
    rw [List.sorted_cons] at hps
    intro hmem
    exact lt_irrefl port (hps.1 port hmem)
  refine ⟨?_, ?_, ?_, ?_, hproc2⟩
  · intro p
    simp only [mem_insertSorted]
    constructor
    · rintro (hp | (rfl | hp))
      · exact (hpart p).mp (Or.inl (List.mem_cons_of_mem port hp))
      · exact (hpart p).mp (Or.inl (List.mem_cons_self p poolRest))
      · exact (hpart p).mp (Or.inr hp)
    · intro hr
      rcases (hpart p).mpr hr with hp | hp
      · rcases List.mem_cons.mp hp with rfl | hp
        · exact Or.inr (Or.inl rfl)
        · exact Or.inl hp
      · exact Or.inr (Or.inr hp)
  · intro p
    simp only [mem_insertSorted]
    rintro ⟨hp1, rfl | hp2⟩
    · exact hnp hp1
    · exact hdisj p ⟨List.mem_cons_of_mem port hp1, hp2⟩
  · exact (List.sorted_cons.mp hps).2
  · exact sorted_insertSorted hus port

theorem createProcess_pool_nil (st : PMState) (fid fver : String)
    (so wo : Bool) (diag : String) (hpool : st.portPool = []) :
    createProcess st fid fver so wo diag =
      (st, Except.error "No available ports for new process") := by
  rw [createProcess, hpool]

theorem createProcess_spawn_fail (st : PMState) (fid fver : String)
    (wo : Bool) (diag : String) (port : Nat) (poolRest : List Nat)
    (hpool : st.portPool = port :: poolRest) :
    createProcess st fid fver false wo diag =
      ({ portPool := insertSorted poolRest port,
         usedPorts := setDiscard (insertSorted st.usedPorts port) port,
         processes := st.processes },
       Except.error "Failed to create flow process: spawn failed") := by
  rw [createProcess, hpool]
  rfl

theorem createProcess_ok (st : PMState) (fid fver : String) (diag : String)
    (port : Nat) (poolRest : List Nat)
    (hpool : st.portPool = port :: poolRest) :
    createProcess st fid fver true true diag =
      ({ portPool := poolRest,
         usedPorts := insertSorted st.usedPorts port,
         processes := aset st.processes (processKey fid fver)
           { flow_id := fid, flow_version := fver, port := port, status := "ready" } },
       Except.ok
         { flow_id := fid, flow_version := fver, port := port, status := "ready" }) := by
  rw [createProcess, hpool]
  rfl

theorem createProcess_wait_fail (st : PMState) (fid fver : String)
    (diag : String) (port : Nat) (poolRest : List Nat)
    (hpool : st.portPool = port :: poolRest) :
    createProcess st fid fver true false diag =
      ({ portPool := insertSorted poolRest port,
         usedPorts := setDiscard (insertSorted st.usedPorts port) port,
         processes := aset st.processes (processKey fid fver)
           { flow_id := fid, flow_version := fver, port := port, status := "error" } },
       Except.error
         ("Failed to create flow process: Process failed to start within 30 seconds. Error: "
           ++ diag)) := by
  rw [createProcess, hpool]
  rfl

theorem poolInv_createProcess (b c : Nat) (st : PMState) (fid fver : String)
    (so wo : Bool) (diag : String) (h : PoolInv b c st) :
    PoolInv b c (createProcess st fid fver so wo diag).1 := by
  obtain ⟨hpart, hdisj, hps, hus, hproc⟩ := h
  cases hpool : st.portPool with
  | nil =>
    rw [createProcess_pool_nil st fid fver so wo diag hpool]
    exact ⟨hpart, hdisj, hps, hus, hproc⟩
  | cons port poolRest =>
    rw [hpool] at hpart hdisj hps
    have hports : b ≤ port ∧ port < b + c :=
      (hpart port).mp (Or.inl (List.mem_cons_self port poolRest))
    cases so with
    | false =>
      rw [createProcess_spawn_fail st fid fver wo diag port poolRest hpool]
      exact poolInv_restore b c port poolRest st.usedPorts st.processes
        hpart hdisj hps hus hproc
    | true =>
      cases wo with
      | true =>
        rw [createProcess_ok st fid fver diag port poolRest hpool]
        apply poolInv_take b c port poolRest st.usedPorts _
          hpart hdisj hps hus
        intro e he
        rcases mem_aset_cases he with rfl | he
        · exact hports
        · exact hproc e he
      | false =>
        rw [createProcess_wait_fail st fid fver diag port poolRest hpool]
        apply poolInv_restore b c port poolRest st.usedPorts _
          hpart hdisj hps hus
        intro e he
        rcases mem_aset_cases he with rfl | he
        · exact hports
        · exact hproc e he

theorem poolInv_stopProcess (b c : Nat) (st : PMState) (fp : FlowProcess)
    (h : PoolInv b c st) (hport : b ≤ fp.port ∧ fp.port < b + c) :
    PoolInv b c (stopProcess st fp) := by
  obtain ⟨hpart, hdisj, hps, hus, hproc⟩ := h
  refine ⟨?_, ?_, ?_, ?_, ?_⟩
  · intro p
    simp only [stopProcess, mem_insertSorted, mem_setDiscard]
    constructor
    · rintro ((rfl | hp) | ⟨hp, -⟩)
      · exact hport
      · exact (hpart p).mp (Or.inl hp)
      · exact (hpart p).mp (Or.inr hp)
    · intro hr
      by_cases hne : p = fp.port
      · exact Or.inl (Or.inl hne)
      · rcases (hpart p).mpr hr with hp | hp
        · exact Or.inl (Or.inr hp)
        · exact Or.inr ⟨hp, hne⟩
  · intro p
    simp only [stopProcess, mem_insertSorted, mem_setDiscard]
    rintro ⟨rfl | hp1, hp2, hne⟩
    · exact hne rfl
    · exact hdisj p ⟨hp1, hp2⟩
  · exact sorted_insertSorted hps fp.port
  · exact sorted_setDiscard hus fp.port
  · intro e he
    exact hproc e (mem_eraseKey_cases he).1

theorem poolInv_runPMOp (b c : Nat) (st : PMState) (op : PMOp)
    (h : PoolInv b c st) : PoolInv b c (runPMOp st op) := by
  cases op with
  | create fid fver so wo diag => exact poolInv_createProcess b c st fid fver so wo diag h
  | stopKey k =>
    rw [runPMOp]
    cases hl : alookup st.processes k with
    | none => exact h
    | some fp =>
      exact poolInv_stopProcess b c st fp h (h.2.2.2.2 (k, fp) (alookup_mem hl))

theorem poolInv_runPMOps (b c : Nat) (ops : List PMOp) :
    ∀ st : PMState, PoolInv b c st → PoolInv b c (runPMOps st ops) := by
  induction ops with
  | nil => intro st h; exact h
  | cons op rest ih =>
    intro st h
    exact ih (runPMOp st op) (poolInv_runPMOp b c st op h)

theorem liveInv_createProcess_ok (b c : Nat) (st : PMState)
    (fid fver diag : String) (h : LiveInv b c st) :
    LiveInv b c (createProcess st fid fver true true diag).1 := by
  obtain ⟨hpool, hused, hkey, hdist⟩ := h
  refine ⟨poolInv_createProcess b c st fid fver true true diag hpool, ?_, ?_, ?_⟩
  all_goals cases hpl : st.portPool with
  | nil =>
    rw [createProcess_pool_nil st fid fver true true diag hpl]
    first
      | exact hused
      | exact hkey
      | exact hdist
  | cons port poolRest =>
    rw [createProcess_ok st fid fver diag port poolRest hpl]
    have hportnew : ∀ e ∈ st.processes, e.2.port ≠ port := by
      intro e he hEq
      have h1 : e.2.port ∈ st.usedPorts := hused e he
      have h2 : port ∈ st.portPool := by
        rw [hpl]
        exact List.mem_cons_self port poolRest
      exact hpool.2.1 port ⟨h2, hEq ▸ h1⟩
    first
      | -- used-port conjunct
        intro e he
        rcases mem_aset_cases he with rfl | he
        · exact mem_insertSorted.mpr (Or.inl rfl)
        · exact mem_insertSorted.mpr (Or.inr (hused e he))
      | -- key-consistency conjunct
        intro e he
        rcases mem_aset_cases he with rfl | he
        · rfl
        · exact hkey e he
      | -- distinct-port conjunct
        intro e₁ he₁ e₂ he₂ hne
        rcases mem_aset_cases he₁ with rfl | he₁ <;>
          rcases mem_aset_cases he₂ with rfl | he₂
        · exact absurd rfl hne
        · exact fun hEq => hportnew e₂ he₂ hEq.symm
        · exact fun hEq => hportnew e₁ he₁ hEq
        · exact hdist e₁ he₁ e₂ he₂ hne

theorem liveInv_stopKey (b c : Nat) (st : PMState) (k : String)
    (h : LiveInv b c st) : LiveInv b c (runPMOp st (PMOp.stopKey k)) := by
  obtain ⟨hpool, hused, hkey, hdist⟩ := h
  rw [runPMOp]
  cases hl : alookup st.processes k with
  | none => exact ⟨hpool, hused, hkey, hdist⟩
  | some fp =>
    have hmem : (k, fp) ∈ st.processes := alookup_mem hl
    have hkfp : k = processKey fp.flow_id fp.flow_version := hkey (k, fp) hmem
    refine ⟨poolInv_stopProcess b c st fp hpool
      (hpool.2.2.2.2 (k, fp) hmem), ?_, ?_, ?_⟩
    · intro e he
      simp only [stopProcess] at he ⊢
      obtain ⟨he2, hne⟩ := mem_eraseKey_cases he
      rw [← hkfp] at hne
      exact mem_setDiscard.mpr ⟨hused e he2,
        hdist e he2 (k, fp) hmem hne⟩
    · intro e he
      simp only [stopProcess] at he
      exact hkey e (mem_eraseKey_cases he).1
    · intro e₁ he₁ e₂ he₂ hne
      simp only [stopProcess] at he₁ he₂
      exact hdist e₁ (mem_eraseKey_cases he₁).1 e₂ (mem_eraseKey_cases he₂).1 hne

theorem liveInv_runPMOps_good (b c : Nat) :
    ∀ (ops : List PMOp), (∀ op ∈ ops, PMOpGood op = true) →
      ∀ st : PMState, LiveInv b c st → LiveInv b c (runPMOps st ops) := by
  intro ops
  induction ops with
  | nil => intro _ st h; exact h
  | cons op rest ih =>
    intro hgood st h
    have hop := hgood op (List.mem_cons_self op rest)
    have hrest := fun o ho => hgood o (List.mem_cons_of_mem op ho)
    rw [runPMOps, List.foldl_cons]
    apply ih hrest
    cases op with
    | create fid fver so wo diag =>
      rw [PMOpGood] at hop
      have hso : so = true := by
        cases so
        · simp at hop
        · rfl
      have hwo : wo = true := by
        cases wo
        · simp [hso] at hop
        · rfl
      subst hso
      subst hwo
      exact liveInv_createProcess_ok b c st fid fver diag h
    | stopKey k => exact liveInv_stopKey b c st k h

theorem liveInv_init (b c : Nat) : LiveInv b c (initPMState b c) := by
  refine ⟨poolInv_init b c, ?_, ?_, ?_⟩
  · intro e he
    simp [initPMState] at he
  · intro e he
    simp [initPMState] at he
  · intro e₁ he₁
    simp [initPMState] at he₁

theorem insertSorted_idem (l : List Nat) (x : Nat) :
    insertSorted (insertSorted l x) x = insertSorted l x := by
  induction l with
  | nil => simp [insertSorted]
  | cons y rest ih =>
    rw [insertSorted]
    by_cases h1 : x = y
    · rw [if_pos h1, insertSorted, if_pos h1]
    · rw [if_neg h1]
      by_cases h2 : x < y
      · rw [if_pos h2, insertSorted, if_pos rfl]
      · rw [if_neg h2, insertSorted, if_neg h1, if_neg h2, ih]

theorem setDiscard_idem (l : List Nat) (x : Nat) :
    setDiscard (setDiscard l x) x = setDiscard l x := by
  simp [setDiscard, List.filter_filter]

theorem eraseKey_idem (l : List (String × FlowProcess)) (k : String) :
    eraseKey (eraseKey l k) k = eraseKey l k := by
  simp [eraseKey, List.filter_filter]

/-- C6 (amended): (1) the free-port set and used-port set always partition
the configured port range — this is preserved by every process creation
(successful or failed) and every stop; (2) stopping a process twice is
idempotent, returning the port to the free pool exactly once (the second
call is a no-op on the whole manager state); (3) in failure-free histories
(every creation's spawn and health wait succeed), two registered processes
under distinct (flow_id, version) keys always hold distinct ports.  The
distinct-port guarantee does not survive creation failures (see the
counterexample). -/
theorem c6_port_pool_invariants :
    (∀ (b c : Nat) (st : PMState) (op : PMOp),
       PoolInv b c st → PoolInv b c (runPMOp st op))
  ∧ (∀ (st : PMState) (fp : FlowProcess),
       stopProcess (stopProcess st fp) fp = stopProcess st fp)
  ∧ (∀ (b c : Nat) (ops : List PMOp),
       (∀ op ∈ ops, PMOpGood op = true) →
       ∀ e₁ ∈ (runPMOps (initPMState b c) ops).processes,
       ∀ e₂ ∈ (runPMOps (initPMState b c) ops).processes,
         e₁.1 ≠ e₂.1 → e₁.2.port ≠ e₂.2.port) := by
  refine ⟨poolInv_runPMOp, ?_, ?_⟩
  · intro st fp
    simp only [stopProcess, insertSorted_idem, setDiscard_idem, eraseKey_idem]
  · intro b c ops hgood
    exact (liveInv_runPMOps_good b c ops hgood
      (initPMState b c) (liveInv_init b c)).2.2.2

/-- c6_invariants_witness instantiates the C6 theorem concretely: the
partition invariant survives a successful creation from the initial state,
a double stop equals a single stop, and a failure-free two-creation history
yields registry entries with distinct ports. -/
theorem c6_invariants_witness :
    PoolInv 8100 50 (runPMOp (initPMState 8100 50)
      (PMOp.create "A" "1" true true ""))
  ∧ stopProcess (stopProcess (initPMState 8100 50)
        { flow_id := "A", flow_version := "1", port := 8100, status := "ready" })
      { flow_id := "A", flow_version := "1", port := 8100, status := "ready" }
    = stopProcess (initPMState 8100 50)
      { flow_id := "A", flow_version := "1", port := 8100, status := "ready" }
  ∧ (∀ e₁ ∈ (runPMOps (initPMState 8100 50)
        [PMOp.create "A" "1" true true "", PMOp.create "B" "1" true true ""]).processes,
     ∀ e₂ ∈ (runPMOps (initPMState 8100 50)
        [PMOp.create "A" "1" true true "", PMOp.create "B" "1" true true ""]).processes,
       e₁.1 ≠ e₂.1 → e₁.2.port ≠ e₂.2.port) :=
  ⟨c6_port_pool_invariants.1 8100 50 (initPMState 8100 50)
      (PMOp.create "A" "1" true true "") (poolInv_init 8100 50),
   c6_port_pool_invariants.2.1 (initPMState 8100 50)
      { flow_id := "A", flow_version := "1", port := 8100, status := "ready" },
   c6_port_pool_invariants.2.2 8100 50
      [PMOp.create "A" "1" true true "", PMOp.create "B" "1" true true ""]
      (by decide)⟩

/-- c6_counterexample refutes the distinct-port clause of C6 as stated: after
a failed creation for key A:1 (which leaves a stale errored registry entry
whose port went back to the pool), a successful creation for B:1 takes port
8100, stopping the stale A:1 entry wrongly discards 8100 from the used set,
and the next creation hands 8100 out again — leaving two live (ready)
processes with distinct keys on the same port. -/
theorem c6_counterexample :
    alookup (runPMOps (initPMState 8100 50)
        [PMOp.create "A" "1" true false "d",
         PMOp.create "B" "1" true true "",
         PMOp.stopKey "A:1",
         PMOp.create "A" "1" true true ""]).processes "A:1"
      = some { flow_id := "A", flow_version := "1", port := 8100,
               status := "ready" }
  ∧ alookup (runPMOps (initPMState 8100 50)
        [PMOp.create "A" "1" true false "d",
         PMOp.create "B" "1" true true "",
         PMOp.stopKey "A:1",
         PMOp.create "A" "1" true true ""]).processes "B:1"
      = some { flow_id := "B", flow_version := "1", port := 8100,
               status := "ready" } := by
  constructor <;> decide

/-- C7 (amended): when a newly spawned worker fails its health poll within
the startup timeout, the process object is marked error, the diagnostic
output is captured into the raised failure text, the port is released back
to the free pool and removed from the used set (the port sets remain a
partition of the range), but — contrary to the claim — the registry is not
reconciled: the errored entry remains registered under its
(flow_id, version) key. -/
theorem c7_startup_timeout_reconciles_ports_not_registry :
    ∀ (st : PMState) (fid fver diag : String) (port : Nat)
      (poolRest : List Nat), st.portPool = port :: poolRest →
      (createProcess st fid fver true false diag).2 =
        Except.error
          ("Failed to create flow process: Process failed to start within 30 seconds. Error: "
            ++ diag)
      ∧ alookup (createProcess st fid fver true false diag).1.processes
          (processKey fid fver) =
          some { flow_id := fid, flow_version := fver, port := port,
                 status := "error" }
      ∧ port ∈ (createProcess st fid fver true false diag).1.portPool
      ∧ port ∉ (createProcess st fid fver true false diag).1.usedPorts
      ∧ (∀ b c : Nat, PoolInv b c st →
          PoolInv b c (createProcess st fid fver true false diag).1) := by
  intro st fid fver diag port poolRest hpool
  rw [createProcess_wait_fail st fid fver diag port poolRest hpool]
  refine ⟨rfl, alookup_aset _ _ _, mem_insertSorted.mpr (Or.inl rfl), ?_, ?_⟩
  · intro hmem
    exact (mem_setDiscard.mp hmem).2 rfl
  · intro b c h
    rw [← createProcess_wait_fail st fid fver diag port poolRest hpool]
    exact poolInv_createProcess b c st fid fver true false diag h

/-- c7_startup_timeout_witness instantiates the C7 theorem at the initial
manager state: the first port 8100 is taken and given back, the raised
failure carries the diagnostic "boom", and the errored entry stays
registered. -/
theorem c7_startup_timeout_witness :
    (createProcess (initPMState 8100 50) "A" "1" true false "boom").2 =
      Except.error
        ("Failed to create flow process: Process failed to start within 30 seconds. Error: "
          ++ "boom")
  ∧ alookup (createProcess (initPMState 8100 50) "A" "1" true false
        "boom").1.processes (processKey "A" "1") =
      some { flow_id := "A", flow_version := "1", port := 8100,
             status := "error" }
  ∧ 8100 ∈ (createProcess (initPMState 8100 50) "A" "1" true false
      "boom").1.portPool
  ∧ 8100 ∉ (createProcess (initPMState 8100 50) "A" "1" true false
      "boom").1.usedPorts :=
  have h := c7_startup_timeout_reconciles_ports_not_registry
    (initPMState 8100 50) "A" "1" "boom" 8100 (List.range' 8101 49) rfl
  ⟨h.1, h.2.1, h.2.2.1, h.2.2.2.1⟩

/-- c7_counterexample refutes C7 as stated: after the health-poll timeout the
registry still holds an entry for the (flow_id, version) key — the claim
says the registry holds no entry for it after the failure. -/
theorem c7_counterexample :
    (alookup (createProcess (initPMState 8100 50) "A" "1" true false
        "boom").1.processes "A:1").isSome = true := by
  decide

theorem alookup_aset_ne {β : Type} (l : List (String × β)) (k k' : String)
    (v : β) (h : k' ≠ k) : alookup (aset l k v) k' = alookup l k' := by
  induction l with
  | nil =>
    simp only [aset, alookup]
    rw [if_neg (fun he => h he.symm)]
  | cons hd rest ih =>
    rw [aset]
    by_cases hk : hd.1 = k
    · rw [show (hd.1, hd.2) = hd from rfl, if_pos hk]
      rw [alookup, alookup, if_neg (fun he => h he.symm), if_neg]
      rw [hk]
      exact fun he => h he.symm
    · rw [show (hd.1, hd.2) = hd from rfl, if_neg hk]
      rw [alookup, alookup]
      by_cases hk' : hd.1 = k'
      · rw [if_pos hk', if_pos hk']
      · rw [if_neg hk', if_neg hk', ih]

theorem alookup_eq_none_iff {β : Type} (l : List (String × β)) (k : String) :
    alookup l k = none ↔ k ∉ l.map Prod.fst := by
  induction l with
  | nil => simp [alookup]
  | cons hd rest ih =>
    rw [alookup]
    by_cases hk : hd.1 = k
    · simp [hk]
    · rw [if_neg hk, ih]
      simp only [List.map_cons, List.mem_cons, not_or]
      constructor
      · exact fun h2 => ⟨fun he => hk he.symm, h2⟩
      · exact And.right

theorem aset_keys_of_mem {β : Type} (l : List (String × β)) (k : String)
    (v : β) (h : k ∈ l.map Prod.fst) :
    (aset l k v).map Prod.fst = l.map Prod.fst := by
  induction l with
  | nil => simp at h
  | cons hd rest ih =>
    rw [aset]
    by_cases hk : hd.1 = k
    · rw [show (hd.1, hd.2) = hd from rfl, if_pos hk]
      simp [hk]
    · rw [show (hd.1, hd.2) = hd from rfl, if_neg hk]
      simp only [List.map_cons] at h ⊢
      rcases List.mem_cons.mp h with h1 | h1
      · exact absurd h1.symm hk
      · rw [ih h1]

theorem aset_of_not_mem {β : Type} (l : List (String × β)) (k : String)
    (v : β) (h : k ∉ l.map Prod.fst) : aset l k v = l ++ [(k, v)] := by
  induction l with
  | nil => simp [aset]
  | cons hd rest ih =>
    simp only [List.map_cons, List.mem_cons, not_or] at h
    rw [aset, show (hd.1, hd.2) = hd from rfl, if_neg (fun he => h.1 he.symm),
      ih h.2, List.cons_append]

theorem alookup_of_mem_nodup {β : Type} {l : List (String × β)}
    (hnd : (l.map Prod.fst).Nodup) {k : String} {v : β} (hm : (k, v) ∈ l) :
    alookup l k = some v := by
  induction l with
  | nil => simp at hm
  | cons hd rest ih =>
    simp only [List.map_cons, List.nodup_cons] at hnd
    rcases List.mem_cons.mp hm with h1 | h1
    · rw [← h1, alookup, if_pos rfl]
    · rw [alookup]
      by_cases hk : hd.1 = k
      · exfalso
        apply hnd.1
        rw [hk]
        exact List.mem_map.mpr ⟨(k, v), h1, rfl⟩
      · rw [if_neg hk]
        exact ih hnd.2 h1

theorem alookup_map_pair {β : Type} (l : List String) (f : String → β)
    (k : String) : alookup (l.map (fun s => (s, f s))) k =
      if k ∈ l then some (f k) else none := by
  induction l with
  | nil => simp [alookup]
  | cons a rest ih =>
    rw [List.map_cons, alookup]
    by_cases ha : a = k
    · subst ha
      simp
    · rw [if_neg ha, ih]
      by_cases hm : k ∈ rest
      · rw [if_pos hm, if_pos (List.mem_cons.mpr (Or.inr hm))]
      · rw [if_neg hm, if_neg]
        intro hc
        rcases List.mem_cons.mp hc with h | h
        · exact ha h.symm
        · exact hm h

theorem foldl_aset_fresh {β : Type} (f : String → β) :
    ∀ (l : List String) (acc : List (String × β)), l.Nodup →
      (∀ s ∈ l, s ∉ acc.map Prod.fst) →
      l.foldl (fun d s => aset d s (f s)) acc = acc ++ l.map (fun s => (s, f s)) := by
  intro l
  induction l with
  | nil => intro acc _ _; simp
  | cons a rest ih =>
    intro acc hnd hfresh
    rw [List.foldl_cons,
      aset_of_not_mem acc a (f a) (hfresh a (List.mem_cons_self a rest)),
      ih (acc ++ [(a, f a)]) (List.nodup_cons.mp hnd).2]
    · simp
    · intro s hs
      simp only [List.map_append, List.mem_append, not_or]
      refine ⟨hfresh s (List.mem_cons_of_mem a hs), ?_⟩
      simp only [List.map_cons, List.map_nil, List.mem_singleton]
      exact fun he => (List.nodup_cons.mp hnd).1 (he ▸ hs)

theorem foldl_aset_overwrite {β γ : Type} (f : String × γ → β) :
    ∀ (es : List (String × γ)) (acc : List (String × β)),
      (es.map Prod.fst).Nodup →
      (∀ e ∈ es, e.1 ∈ acc.map Prod.fst) →
      ((es.foldl (fun d e => aset d e.1 (f e)) acc).map Prod.fst = acc.map Prod.fst
      ∧ (∀ k, k ∉ es.map Prod.fst →
          alookup (es.foldl (fun d e => aset d e.1 (f e)) acc) k = alookup acc k)
      ∧ (∀ e ∈ es,
          alookup (es.foldl (fun d e => aset d e.1 (f e)) acc) e.1 = some (f e))) := by
  intro es
  induction es with
  | nil => intro acc _ _; exact ⟨rfl, fun _ _ => rfl, fun e he => absurd he (by simp)⟩
  | cons e rest ih =>
    intro acc hnd hpres
    simp only [List.map_cons, List.nodup_cons] at hnd
    have hkeyset : (aset acc e.1 (f e)).map Prod.fst = acc.map Prod.fst :=
      aset_keys_of_mem acc e.1 (f e) (hpres e (List.mem_cons_self e rest))
    have hpres' : ∀ e' ∈ rest, e'.1 ∈ (aset acc e.1 (f e)).map Prod.fst := by
      intro e' he'
      rw [hkeyset]
      exact hpres e' (List.mem_cons_of_mem e he')
    obtain ⟨ihk, ihu, ihv⟩ := ih (aset acc e.1 (f e)) hnd.2 hpres'
    rw [List.foldl_cons]
    refine ⟨by rw [ihk, hkeyset], ?_, ?_⟩
    · intro k hk
      simp only [List.map_cons, List.mem_cons, not_or] at hk
      rw [ihu k hk.2, alookup_aset_ne acc e.1 k (f e) hk.1]
    · intro e' he'
      rcases List.mem_cons.mp he' with h1 | h1
      · rw [h1, ihu e.1 hnd.1, alookup_aset]
      · exact ihv e' h1

theorem setAdd_nodup {s : List String} (h : s.Nodup) (x : String) :
    (setAdd s x).Nodup := by
  rw [setAdd]
  split
  · exact h
  · next hx =>
    refine List.Nodup.append h (List.nodup_singleton x) ?_
    intro a ha hb
    exact hx ((List.mem_singleton.mp hb) ▸ ha)

theorem mem_setAdd {s : List String} {x y : String} :
    y ∈ setAdd s x ↔ y ∈ s ∨ y = x := by
  rw [setAdd]
  split
  · next hx =>
    constructor
    · exact Or.inl
    · rintro (h | rfl)
      · exact h
      · exact hx
  · simp

theorem eq_singleton_of_all_eq {l : List String} {a : String} (hnd : l.Nodup)
    (hm : a ∈ l) (hall : ∀ x ∈ l, x = a) : l = [a] := by
  cases l with
  | nil => simp at hm
  | cons b t =>
    have hb : b = a := hall b (List.mem_cons_self b t)
    subst hb
    have ht : t = [] := by
      rw [List.eq_nil_iff_forall_not_mem]
      intro x hx
      exact (List.nodup_cons.mp hnd).1 ((hall x (List.mem_cons_of_mem b hx)) ▸ hx)
    rw [ht]

theorem length_filter_ne {l : List String} (hnd : l.Nodup) (x : String) :
    (l.filter (fun s => decide (s ≠ x))).length =
      if x ∈ l then l.length - 1 else l.length := by
  induction l with
  | nil => simp
  | cons a t ih =>
    simp only [List.nodup_cons] at hnd
    by_cases hax : a = x
    · subst hax
      rw [List.filter_cons_of_neg (by simp), if_pos (List.mem_cons_self a t)]
      have h2 : (t.filter (fun s => decide (s ≠ a))).length = t.length := by
        rw [ih hnd.2, if_neg hnd.1]
      rw [h2, List.length_cons]
      omega
    · rw [List.filter_cons_of_pos (by simp [hax])]
      simp only [List.length_cons, ih hnd.2, List.mem_cons]
      by_cases hx : x ∈ t
      · rw [if_pos hx, if_pos (Or.inr hx)]
        have : 1 ≤ t.length := List.length_pos.mpr (List.ne_nil_of_mem hx)
        omega
      · rw [if_neg hx, if_neg (by rintro (h | h); exact hax h.symm; exact hx h)]

theorem indexOf_append_self {l : List String} {a : String} (h : a ∉ l) :
    (l ++ [a]).indexOf a = l.length := by
  induction l with
  | nil => simp
  | cons b t ih =>
    simp only [List.mem_cons, not_or] at h
    rw [List.cons_append, List.indexOf_cons_ne _ (fun he => h.1 he.symm),
      ih h.2, List.length_cons]

theorem buildGraph_fold (edges : List Edge) :
    ∀ (g : Graph) (ids : List String) (P : String → String → Prop),
      (∀ e ∈ edges, e.target ∈ ids) →
      g.map Prod.fst = ids →
      (∀ k ∈ ids, ∃ deps, alookup g k = some deps ∧ deps.Nodup ∧
        ∀ s, (s ∈ deps ↔ P s k)) →
      ((edges.foldl (fun g e => graphAddDep g e.target e.source) g).map Prod.fst = ids
      ∧ ∀ k ∈ ids, ∃ deps,
          alookup (edges.foldl (fun g e => graphAddDep g e.target e.source) g) k
            = some deps
          ∧ deps.Nodup
          ∧ ∀ s, (s ∈ deps ↔ P s k ∨ ∃ e ∈ edges, e.target = k ∧ e.source = s)) := by
  induction edges with
  | nil =>
    intro g ids P _ hkeys hchar
    refine ⟨hkeys, fun k hk => ?_⟩
    obtain ⟨deps, h1, h2, h3⟩ := hchar k hk
    exact ⟨deps, h1, h2, fun s => by simp [h3 s]⟩
  | cons e rest ih =>
    intro g ids P hend hkeys hchar
    obtain ⟨deps₀, hd1, hd2, hd3⟩ :=
      hchar e.target (hend e (List.mem_cons_self e rest))
    have hstep : graphAddDep g e.target e.source
        = aset g e.target (setAdd deps₀ e.source) := by
      rw [graphAddDep, hd1]
    have hkeys' : (graphAddDep g e.target e.source).map Prod.fst = ids := by
      rw [hstep, aset_keys_of_mem, hkeys]
      rw [hkeys]
      exact hend e (List.mem_cons_self e rest)
    have hchar' : ∀ k ∈ ids,
        ∃ deps, alookup (graphAddDep g e.target e.source) k = some deps
          ∧ deps.Nodup
          ∧ ∀ s, (s ∈ deps ↔ (P s k ∨ (e.target = k ∧ e.source = s))) := by
      intro k hk
      by_cases hkt : k = e.target
      · subst hkt
        refine ⟨setAdd deps₀ e.source, ?_, setAdd_nodup hd2 e.source, ?_⟩
        · rw [hstep]
          exact alookup_aset g e.target (setAdd deps₀ e.source)
        · intro s
          rw [mem_setAdd, hd3 s]
          constructor
          · rintro (h | rfl)
            · exact Or.inl h
            · exact Or.inr ⟨rfl, rfl⟩
          · rintro (h | ⟨_, rfl⟩)
            · exact Or.inl h
            · exact Or.inr rfl
      · obtain ⟨deps, h1, h2, h3⟩ := hchar k hk
        refine ⟨deps, ?_, h2, ?_⟩
        · rw [hstep, alookup_aset_ne g e.target k _ hkt]
          exact h1
        · intro s
          rw [h3 s]
          constructor
          · exact Or.inl
          · rintro (h | ⟨hc, _⟩)
            · exact h
            · exact absurd hc.symm hkt
    have hend' : ∀ e' ∈ rest, e'.target ∈ ids :=
      fun e' he' => hend e' (List.mem_cons_of_mem e he')
    obtain ⟨rk, rc⟩ := ih (graphAddDep g e.target e.source) ids
      (fun s k => P s k ∨ (e.target = k ∧ e.source = s)) hend' hkeys' hchar'
    rw [List.foldl_cons]
    refine ⟨rk, fun k hk => ?_⟩
    obtain ⟨deps, h1, h2, h3⟩ := rc k hk
    refine ⟨deps, h1, h2, fun s => ?_⟩
    rw [h3 s]
    constructor
    · rintro ((h | ⟨ht, hs⟩) | ⟨e', he', ht, hs⟩)
      · exact Or.inl h
      · exact Or.inr ⟨e, List.mem_cons_self e rest, ht, hs⟩
      · exact Or.inr ⟨e', List.mem_cons_of_mem e he', ht, hs⟩
    · rintro (h | ⟨e', he', ht, hs⟩)
      · exact Or.inl (Or.inl h)
      · rcases List.mem_cons.mp he' with rfl | he2
        · exact Or.inl (Or.inr ⟨ht, hs⟩)
        · exact Or.inr ⟨e', he2, ht, hs⟩

theorem buildExecutionGraph_char (nodes : List Node) (edges : List Edge)
    (hnodup : (nodes.map Node.id).Nodup)
    (hend : ∀ e ∈ edges, e.target ∈ nodes.map Node.id) :
    (buildExecutionGraph nodes edges).map Prod.fst = nodes.map Node.id
    ∧ ∀ k ∈ nodes.map Node.id, ∃ deps,
        alookup (buildExecutionGraph nodes edges) k = some deps
        ∧ deps.Nodup
        ∧ ∀ s, (s ∈ deps ↔ ∃ e ∈ edges, e.target = k ∧ e.source = s) := by
  have hseed : nodes.foldl (fun g n => aset g n.id []) ([] : Graph)
      = (nodes.map Node.id).map (fun s => (s, ([] : List String))) := by
    rw [← List.foldl_map Node.id (fun (g : Graph) s => aset g s []) nodes []]
    rw [foldl_aset_fresh (fun _ => ([] : List String)) (nodes.map Node.id) []
      hnodup (by simp)]
    rw [List.nil_append]
  have hkeys : (nodes.foldl (fun g n => aset g n.id []) ([] : Graph)).map Prod.fst
      = nodes.map Node.id := by
    rw [hseed, List.map_map]
    simp
  have hchar : ∀ k ∈ nodes.map Node.id, ∃ deps,
      alookup (nodes.foldl (fun g n => aset g n.id []) ([] : Graph)) k = some deps
      ∧ deps.Nodup ∧ ∀ s, (s ∈ deps ↔ False) := by
    intro k hk
    refine ⟨[], ?_, List.nodup_nil, by simp⟩
    rw [hseed, alookup_map_pair, if_pos hk]
  obtain ⟨h1, h2⟩ := buildGraph_fold edges
    (nodes.foldl (fun g n => aset g n.id []) ([] : Graph))
    (nodes.map Node.id) (fun _ _ => False) hend hkeys hchar
  refine ⟨h1, fun k hk => ?_⟩
  obtain ⟨deps, g1, g2, g3⟩ := h2 k hk
  exact ⟨deps, g1, g2, fun s => by rw [g3 s]; simp⟩

theorem buildExecutionGraph_GWF (nodes : List Node) (edges : List Edge)
    (hnodup : (nodes.map Node.id).Nodup)
    (hend : ∀ e ∈ edges, e.source ∈ nodes.map Node.id
      ∧ e.target ∈ nodes.map Node.id)
    (hacyc : Acyclic edges) :
    GWF (buildExecutionGraph nodes edges) (nodes.map Node.id)
    ∧ ∀ k ∈ nodes.map Node.id, ∀ s,
        (s ∈ depsOf (buildExecutionGraph nodes edges) k ↔ depRel edges s k) := by
  obtain ⟨hkeys, hchar⟩ := buildExecutionGraph_char nodes edges hnodup
    (fun e he => (hend e he).2)
  have hdep : ∀ k ∈ nodes.map Node.id,
      depsOf (buildExecutionGraph nodes edges) k
        = (alookup (buildExecutionGraph nodes edges) k).getD [] := fun _ _ => rfl
  have hbridge : ∀ k ∈ nodes.map Node.id, ∀ s,
      (s ∈ depsOf (buildExecutionGraph nodes edges) k ↔ depRel edges s k) := by
    intro k hk s
    obtain ⟨deps, h1, _, h3⟩ := hchar k hk
    rw [depsOf, h1, Option.getD_some, h3 s, depRel]
    constructor
    · rintro ⟨e, he, ht, hs⟩
      exact ⟨e, he, hs, ht⟩
    · rintro ⟨e, he, hs, ht⟩
      exact ⟨e, he, ht, hs⟩
  refine ⟨⟨hkeys, hnodup, ?_, ?_, ?_⟩, hbridge⟩
  · intro k hk
    obtain ⟨deps, h1, h2, _⟩ := hchar k hk
    rw [depsOf, h1, Option.getD_some]
    exact h2
  · intro k hk s hs
    obtain ⟨e, he, hsrc, _⟩ := (hbridge k hk s).mp hs
    exact hsrc ▸ (hend e he).1
  · intro k hk hself
    exact hacyc k (Relation.TransGen.single ((hbridge k hk k).mp hself))

theorem buildInDegree_spec (g : Graph) (nodes : List Node)
    (hkeys : g.map Prod.fst = nodes.map Node.id)
    (hnodup : (nodes.map Node.id).Nodup) :
    (buildInDegree g nodes).map Prod.fst = nodes.map Node.id
    ∧ ∀ k ∈ nodes.map Node.id, alookup (buildInDegree g nodes) k
        = some ((depsOf g k).length : Int) := by
  have hseed : nodes.foldl (fun d n => aset d n.id (0 : Int)) []
      = (nodes.map Node.id).map (fun s => (s, (0 : Int))) := by
    rw [← List.foldl_map Node.id (fun (d : List (String × Int)) s => aset d s 0)
      nodes []]
    rw [foldl_aset_fresh (fun _ => (0 : Int)) (nodes.map Node.id) [] hnodup
      (by simp)]
    rw [List.nil_append]
  have hseedkeys : (nodes.foldl (fun d n => aset d n.id (0 : Int)) []).map Prod.fst
      = nodes.map Node.id := by
    rw [hseed, List.map_map]
    simp
  have hgnd : (g.map Prod.fst).Nodup := hkeys ▸ hnodup
  have hpres : ∀ e ∈ g, e.1 ∈ (nodes.foldl (fun d n => aset d n.id (0 : Int)) []).map
      Prod.fst := by
    intro e he
    rw [hseedkeys, ← hkeys]
    exact List.mem_map.mpr ⟨e, he, rfl⟩
  obtain ⟨h1, _, h3⟩ := foldl_aset_overwrite
    (fun (e : String × List String) => ((e.2.length : Int))) g
    (nodes.foldl (fun d n => aset d n.id (0 : Int)) []) hgnd hpres
  constructor
  · rw [buildInDegree, h1, hseedkeys]
  · intro k hk
    rw [← hkeys] at hk
    obtain ⟨e, he, hke⟩ := List.mem_map.mp hk
    have hdeps : depsOf g e.1 = e.2 := by
      rw [depsOf, alookup_of_mem_nodup hgnd (show (e.1, e.2) ∈ g from he),
        Option.getD_some]
    rw [← hke, buildInDegree, h3 e he, hdeps]

theorem procDec_eq (g : Graph) (indeg : List (String × Int)) (current : String) :
    processDecrements g indeg current = g.foldl (pdBody current) (indeg, []) := rfl

theorem pdBody_fold (current : String) :
    ∀ (es : List (String × List String)) (acc : List (String × Int) × List String),
      (es.map Prod.fst).Nodup →
      (∀ e ∈ es, e.1 ∈ acc.1.map Prod.fst) →
      (∀ x ∈ acc.2, x ∉ es.map Prod.fst) →
      acc.2.Nodup →
      ((es.foldl (pdBody current) acc).1.map Prod.fst = acc.1.map Prod.fst
      ∧ (∀ k, k ∉ es.map Prod.fst →
          alookup (es.foldl (pdBody current) acc).1 k = alookup acc.1 k)
      ∧ (∀ e ∈ es, alookup (es.foldl (pdBody current) acc).1 e.1
          = some ((alookup acc.1 e.1).getD 0 - (if current ∈ e.2 then 1 else 0)))
      ∧ (∀ k, k ∈ (es.foldl (pdBody current) acc).2 ↔ k ∈ acc.2
          ∨ ∃ d, (k, d) ∈ es ∧ current ∈ d ∧ (alookup acc.1 k).getD 0 = 1)
      ∧ (es.foldl (pdBody current) acc).2.Nodup) := by
  intro es
  induction es with
  | nil =>
    intro acc _ _ _ hnd2
    refine ⟨rfl, fun _ _ => rfl, fun e he => absurd he (by simp), fun k => ?_, hnd2⟩
    simp
  | cons e rest ih =>
    intro acc hnd hpres hdisj hnd2
    simp only [List.map_cons, List.nodup_cons] at hnd
    obtain ⟨hnd1, hndr⟩ := hnd
    have hkeyhead : e.1 ∈ acc.1.map Prod.fst := hpres e (List.mem_cons_self e rest)
    obtain ⟨v₀, hv₀⟩ : ∃ v, alookup acc.1 e.1 = some v := by
      cases h : alookup acc.1 e.1 with
      | none => exact absurd hkeyhead ((alookup_eq_none_iff acc.1 e.1).mp h)
      | some v => exact ⟨v, rfl⟩
    rw [List.foldl_cons]
    by_cases hc : current ∈ e.2
    · have hkeyne : ∀ k, k ∈ rest.map Prod.fst → k ≠ e.1 :=
        fun k hk he => hnd1 (he ▸ hk)
      by_cases hz : v₀ - 1 = 0
      · have heq : pdBody current acc e = (aset acc.1 e.1 (v₀ - 1), acc.2 ++ [e.1]) := by
          simp only [pdBody, if_pos hc, hv₀, Option.getD_some, if_pos hz]
        rw [heq]
        have hne1 : e.1 ∉ acc.2 := fun hmem =>
          hdisj e.1 hmem (by simp)
        obtain ⟨ih1, ih2, ih3, ih4, ih5⟩ := ih (aset acc.1 e.1 (v₀ - 1), acc.2 ++ [e.1])
          hndr
          (by
            intro e' he'
            rw [aset_keys_of_mem acc.1 e.1 (v₀ - 1) hkeyhead]
            exact hpres e' (List.mem_cons_of_mem e he'))
          (by
            intro x hx
            rcases List.mem_append.mp hx with hx | hx
            · exact fun hk => hdisj x hx (by simp [hk])
            · rw [List.mem_singleton.mp hx]
              exact hnd1)
          (List.Nodup.append hnd2 (List.nodup_singleton e.1)
            (fun a ha hb => hne1 ((List.mem_singleton.mp hb) ▸ ha)))
        have haccne : ∀ k, k ≠ e.1 →
            alookup (aset acc.1 e.1 (v₀ - 1)) k = alookup acc.1 k :=
          fun k hk => alookup_aset_ne acc.1 e.1 k (v₀ - 1) hk
        refine ⟨?_, ?_, ?_, ?_, ih5⟩
        · rw [ih1, aset_keys_of_mem acc.1 e.1 (v₀ - 1) hkeyhead]
        · intro k hk
          simp only [List.map_cons, List.mem_cons, not_or] at hk
          rw [ih2 k hk.2, haccne k hk.1]
        · intro e' he'
          rcases List.mem_cons.mp he' with rfl | he2
          · rw [ih2 e'.1 hnd1, alookup_aset, hv₀, Option.getD_some, if_pos hc]
          · have hne : e'.1 ≠ e.1 :=
              hkeyne e'.1 (List.mem_map.mpr ⟨e', he2, rfl⟩)
            rw [ih3 e' he2, haccne e'.1 hne]
        · intro k
          rw [ih4 k]
          constructor
          · rintro (hk2 | ⟨d, hd, hcd, hl⟩)
            · rcases List.mem_append.mp hk2 with hk3 | hk3
              · exact Or.inl hk3
              · right
                refine ⟨e.2, ?_, hc, ?_⟩
                · rw [List.mem_singleton.mp hk3]
                  exact List.mem_cons_self e rest
                · rw [List.mem_singleton.mp hk3, hv₀, Option.getD_some]
                  omega
            · have hne : k ≠ e.1 := hkeyne k (List.mem_map.mpr ⟨(k, d), hd, rfl⟩)
              rw [haccne k hne] at hl
              exact Or.inr ⟨d, List.mem_cons_of_mem e hd, hcd, hl⟩
          · rintro (hk2 | ⟨d, hd, hcd, hl⟩)
            · exact Or.inl (List.mem_append.mpr (Or.inl hk2))
            · rcases List.mem_cons.mp hd with heq2 | hd2
              · left
                have hk1 : k = e.1 := by
                  have := congrArg Prod.fst heq2
                  simpa using this
                rw [hk1]
                simp
              · have hne : k ≠ e.1 := hkeyne k (List.mem_map.mpr ⟨(k, d), hd2, rfl⟩)
                rw [← haccne k hne] at hl
                exact Or.inr ⟨d, hd2, hcd, hl⟩
      · have heq : pdBody current acc e = (aset acc.1 e.1 (v₀ - 1), acc.2) := by
          simp only [pdBody, if_pos hc, hv₀, Option.getD_some, if_neg hz]
        rw [heq]
        obtain ⟨ih1, ih2, ih3, ih4, ih5⟩ := ih (aset acc.1 e.1 (v₀ - 1), acc.2)
          hndr
          (by
            intro e' he'
            rw [aset_keys_of_mem acc.1 e.1 (v₀ - 1) hkeyhead]
            exact hpres e' (List.mem_cons_of_mem e he'))
          (fun x hx hk => hdisj x hx (by simp [hk]))
          hnd2
        have haccne : ∀ k, k ≠ e.1 →
            alookup (aset acc.1 e.1 (v₀ - 1)) k = alookup acc.1 k :=
          fun k hk => alookup_aset_ne acc.1 e.1 k (v₀ - 1) hk
        refine ⟨?_, ?_, ?_, ?_, ih5⟩
        · rw [ih1, aset_keys_of_mem acc.1 e.1 (v₀ - 1) hkeyhead]
        · intro k hk
          simp only [List.map_cons, List.mem_cons, not_or] at hk
          rw [ih2 k hk.2, haccne k hk.1]
        · intro e' he'
          rcases List.mem_cons.mp he' with rfl | he2
          · rw [ih2 e'.1 hnd1, alookup_aset, hv₀, Option.getD_some, if_pos hc]
          · have hne : e'.1 ≠ e.1 :=
              hkeyne e'.1 (List.mem_map.mpr ⟨e', he2, rfl⟩)
            rw [ih3 e' he2, haccne e'.1 hne]
        · intro k
          rw [ih4 k]
          constructor
          · rintro (hk2 | ⟨d, hd, hcd, hl⟩)
            · exact Or.inl hk2
            · have hne : k ≠ e.1 := hkeyne k (List.mem_map.mpr ⟨(k, d), hd, rfl⟩)
              rw [haccne k hne] at hl
              exact Or.inr ⟨d, List.mem_cons_of_mem e hd, hcd, hl⟩
          · rintro (hk2 | ⟨d, hd, hcd, hl⟩)
            · exact Or.inl hk2
            · rcases List.mem_cons.mp hd with heq2 | hd2
              · exfalso
                have hk1 : k = e.1 := by
                  have := congrArg Prod.fst heq2
                  simpa using this
                rw [hk1, hv₀, Option.getD_some] at hl
                omega
              · have hne : k ≠ e.1 := hkeyne k (List.mem_map.mpr ⟨(k, d), hd2, rfl⟩)
                rw [← haccne k hne] at hl
                exact Or.inr ⟨d, hd2, hcd, hl⟩
    · have heq : pdBody current acc e = acc := by
        simp only [pdBody, if_neg hc]
      rw [heq]
      obtain ⟨ih1, ih2, ih3, ih4, ih5⟩ := ih acc hndr
        (fun e' he' => hpres e' (List.mem_cons_of_mem e he'))
        (fun x hx hk => hdisj x hx (by simp [hk]))
        hnd2
      refine ⟨ih1, ?_, ?_, ?_, ih5⟩
      · intro k hk
        simp only [List.map_cons, List.mem_cons, not_or] at hk
        exact ih2 k hk.2
      · intro e' he'
        rcases List.mem_cons.mp he' with rfl | he2
        · rw [ih2 e'.1 hnd1, hv₀, if_neg hc]
          simp
        · exact ih3 e' he2
      · intro k
        rw [ih4 k]
        constructor
        · rintro (hk2 | ⟨d, hd, hcd, hl⟩)
          · exact Or.inl hk2
          · exact Or.inr ⟨d, List.mem_cons_of_mem e hd, hcd, hl⟩
        · rintro (hk2 | ⟨d, hd, hcd, hl⟩)
          · exact Or.inl hk2
          · rcases List.mem_cons.mp hd with heq2 | hd2
            · exfalso
              have hd2 : d = e.2 := by
                have := congrArg Prod.snd heq2
                simpa using this
              exact hc (hd2 ▸ hcd)
            · exact Or.inr ⟨d, hd2, hcd, hl⟩

theorem kahn_step (g : Graph) (ids : List String) (hg : GWF g ids)
    (current : String) (queue order : List String) (indeg : List (String × Int))
    (hinv : KInv g ids order (current :: queue) indeg) :
    KInv g ids (order ++ [current])
      (queue ++ (processDecrements g indeg current).2)
      (processDecrements g indeg current).1 := by
  obtain ⟨hgkeys, hidnd, hgdnd, _, _⟩ := hg
  obtain ⟨hikeys, hnd0, hsub, hcnt, hmem, hprec⟩ := hinv
  have hgkeysnd : (g.map Prod.fst).Nodup := hgkeys ▸ hidnd
  have hentry : ∀ e ∈ g, depsOf g e.1 = e.2 := by
    intro e he
    rw [depsOf, alookup_of_mem_nodup hgkeysnd (show (e.1, e.2) ∈ g from he),
      Option.getD_some]
  have hentry_of_id : ∀ k ∈ ids, (k, depsOf g k) ∈ g := by
    intro k hk
    rw [← hgkeys] at hk
    obtain ⟨e, he, hke⟩ := List.mem_map.mp hk
    have h2 := hentry e he
    rw [← hke, h2]
    exact he
  have hcur_ids : current ∈ ids := hsub current (by simp)
  have hndparts := hnd0
  rw [List.nodup_append, List.nodup_cons] at hndparts
  obtain ⟨hond, ⟨hcq, hqnd⟩, hodisj⟩ := hndparts
  have hco : current ∉ order := fun h => hodisj h (by simp)
  have hpd := pdBody_fold current g (indeg, []) hgkeysnd
    (by
      intro e he
      rw [hikeys, ← hgkeys]
      exact List.mem_map.mpr ⟨e, he, rfl⟩)
    (by intro x hx; simp at hx)
    List.nodup_nil
  rw [← procDec_eq] at hpd
  obtain ⟨hp1, _, hp3, hp4, hp5⟩ := hpd
  have hlook : ∀ k ∈ ids, (alookup indeg k).getD 0 =
      (((depsOf g k).filter (fun s => decide (s ∉ order))).length : Int) := by
    intro k hk
    rw [hcnt k hk, Option.getD_some]
  have hstep4 : ∀ k, k ∈ (processDecrements g indeg current).2 ↔
      k ∈ ids ∧ current ∈ depsOf g k ∧
      ((depsOf g k).filter (fun s => decide (s ∉ order))).length = 1 := by
    intro k
    rw [hp4 k]
    simp only [List.not_mem_nil, false_or]
    constructor
    · rintro ⟨d, hd, hcd, hl⟩
      have hk : k ∈ ids := by
        rw [← hgkeys]
        exact List.mem_map.mpr ⟨(k, d), hd, rfl⟩
      have hdd : depsOf g k = d := hentry (k, d) hd
      refine ⟨hk, hdd ▸ hcd, ?_⟩
      rw [hlook k hk] at hl
      exact_mod_cast hl
    · rintro ⟨hk, hcd, hl⟩
      refine ⟨depsOf g k, hentry_of_id k hk, hcd, ?_⟩
      rw [hlook k hk]
      exact_mod_cast hl
  have hfresh : ∀ k ∈ (processDecrements g indeg current).2,
      k ∈ ids ∧ k ∉ order ∧ k ≠ current ∧ k ∉ queue := by
    intro k hk
    obtain ⟨hk1, _, hk3⟩ := (hstep4 k).mp hk
    have hnotall : ¬(∀ s ∈ depsOf g k, s ∈ order) := by
      intro hall
      have hfe : (depsOf g k).filter (fun s => decide (s ∉ order)) = [] := by
        rw [List.filter_eq_nil]
        intro a ha
        simp [hall a ha]
      rw [hfe] at hk3
      simp at hk3
    have hkno : k ∉ order ++ current :: queue :=
      fun hmem2 => hnotall ((hmem k hk1).mp hmem2)
    simp only [List.mem_append, List.mem_cons, not_or] at hkno
    exact ⟨hk1, hkno.1, hkno.2.1, hkno.2.2⟩
  refine ⟨?_, ?_, ?_, ?_, ?_, ?_⟩
  · rw [hp1, hikeys]
  · have hlisteq : (order ++ [current]) ++ (queue ++ (processDecrements g indeg current).2)
        = (order ++ current :: queue) ++ (processDecrements g indeg current).2 := by
      simp
    rw [hlisteq]
    refine List.Nodup.append hnd0 hp5 ?_
    intro a ha hb
    obtain ⟨_, h1, h2, h3⟩ := hfresh a hb
    simp only [List.mem_append, List.mem_cons] at ha
    rcases ha with h | h | h
    · exact h1 h
    · exact h2 h
    · exact h3 h
  · intro x hx
    simp only [List.mem_append, List.mem_cons, List.not_mem_nil, or_false] at hx
    rcases hx with (h | rfl) | h | h
    · exact hsub x (by simp [h])
    · exact hcur_ids
    · exact hsub x (by simp [h])
    · exact (hfresh x h).1
  · intro k hk
    rw [hp3 (k, depsOf g k) (hentry_of_id k hk), hlook k hk]
    have hfeq : (depsOf g k).filter (fun s => decide (s ∉ order ++ [current]))
        = ((depsOf g k).filter (fun s => decide (s ∉ order))).filter
            (fun s => decide (s ≠ current)) := by
      rw [List.filter_filter]
      apply List.filter_congr
      intro x _
      simp [List.mem_append, not_or, and_comm]
    have hfnd : ((depsOf g k).filter (fun s => decide (s ∉ order))).Nodup :=
      (hgdnd k hk).filter _
    rw [hfeq, length_filter_ne hfnd current]
    by_cases hcd : current ∈ depsOf g k
    · have hcf : current ∈ (depsOf g k).filter (fun s => decide (s ∉ order)) :=
        List.mem_filter.mpr ⟨hcd, by simp [hco]⟩
      rw [if_pos hcf, if_pos hcd]
      have hone : 1 ≤ ((depsOf g k).filter (fun s => decide (s ∉ order))).length :=
        List.length_pos.mpr (List.ne_nil_of_mem hcf)
      congr 1
      omega
    · rw [if_neg (fun hcf => hcd (List.mem_filter.mp hcf).1), if_neg hcd]
      simp
  · intro k hk
    constructor
    · intro hkin
      simp only [List.mem_append, List.mem_cons, List.not_mem_nil, or_false] at hkin
      rcases hkin with (h | rfl) | h | h
      · intro s hs
        exact List.mem_append.mpr
          (Or.inl (((hmem k hk).mp (by simp [h])) s hs))
      · intro s hs
        exact List.mem_append.mpr
          (Or.inl (((hmem k hk).mp (by simp)) s hs))
      · intro s hs
        exact List.mem_append.mpr
          (Or.inl (((hmem k hk).mp (by simp [h])) s hs))
      · obtain ⟨_, hcd, hk3⟩ := (hstep4 k).mp h
        intro s hs
        by_cases hso : s ∈ order
        · exact List.mem_append.mpr (Or.inl hso)
        · obtain ⟨a, ha⟩ := List.length_eq_one.mp hk3
          have hsf : s ∈ (depsOf g k).filter (fun s => decide (s ∉ order)) :=
            List.mem_filter.mpr ⟨hs, by simp [hso]⟩
          have hcf : current ∈ (depsOf g k).filter (fun s => decide (s ∉ order)) :=
            List.mem_filter.mpr ⟨hcd, by simp [hco]⟩
          rw [ha] at hsf hcf
          rw [List.mem_singleton.mp hsf, ← List.mem_singleton.mp hcf]
          simp
    · intro hall
      by_cases hkin : k ∈ order ++ current :: queue
      · simp only [List.mem_append, List.mem_cons] at hkin ⊢
        rcases hkin with h | h | h
        · exact Or.inl (Or.inl h)
        · exact Or.inl (Or.inr (by simp [h]))
        · exact Or.inr (Or.inl h)
      · have hnall : ¬ ∀ s ∈ depsOf g k, s ∈ order :=
          fun h => hkin ((hmem k hk).mpr h)
        push_neg at hnall
        obtain ⟨s₀, hs₀, hs₀o⟩ := hnall
        have hs₀c : s₀ = current := by
          rcases List.mem_append.mp (hall s₀ hs₀) with h | h
          · exact absurd h hs₀o
          · simpa using h
        rw [hs₀c] at hs₀ hs₀o
        have hflt : (depsOf g k).filter (fun s => decide (s ∉ order)) = [current] := by
          apply eq_singleton_of_all_eq ((hgdnd k hk).filter _)
            (List.mem_filter.mpr ⟨hs₀, by simp [hs₀o]⟩)
          intro x hx
          obtain ⟨hx1, hx2⟩ := List.mem_filter.mp hx
          rcases List.mem_append.mp (hall x hx1) with h | h
          · simp at hx2
            exact absurd h hx2
          · simpa using h
        have hk3 : ((depsOf g k).filter (fun s => decide (s ∉ order))).length = 1 := by
          rw [hflt]
          rfl
        have hks : k ∈ (processDecrements g indeg current).2 :=
          (hstep4 k).mpr ⟨hk, hs₀, hk3⟩
        simp [hks]
  · intro k hkin s hs
    rcases List.mem_append.mp hkin with h | h
    · obtain ⟨hso, hidx⟩ := hprec k h s hs
      refine ⟨List.mem_append.mpr (Or.inl hso), ?_⟩
      rw [List.indexOf_append_of_mem hso, List.indexOf_append_of_mem h]
      exact hidx
    · have hk2 : k = current := by simpa using h
      subst hk2
      have hso : s ∈ order := ((hmem k hcur_ids).mp (by simp)) s hs
      refine ⟨List.mem_append.mpr (Or.inl hso), ?_⟩
      rw [List.indexOf_append_of_mem hso, indexOf_append_self hco]
      exact List.indexOf_lt_length.mpr hso

theorem kahn_run (g : Graph) (ids : List String) (hg : GWF g ids) :
    ∀ (fuel : Nat) (queue order : List String) (indeg : List (String × Int)),
      KInv g ids order queue indeg →
      ids.length < fuel + order.length →
      ∃ fo, kahnLoop g fuel queue indeg order = some fo
        ∧ (∀ k ∈ ids, (∀ s ∈ depsOf g k, s ∈ fo) → k ∈ fo)
        ∧ fo.Nodup ∧ (∀ x ∈ fo, x ∈ ids)
        ∧ (∀ k ∈ fo, ∀ s ∈ depsOf g k,
            s ∈ fo ∧ fo.indexOf s < fo.indexOf k) := by
  intro fuel
  induction fuel with
  | zero =>
    intro queue order indeg hinv hbound
    exfalso
    have hond : order.Nodup := hinv.2.1.sublist (List.sublist_append_left order queue)
    have hsub : order ⊆ ids := fun x hx => hinv.2.2.1 x (List.mem_append.mpr (Or.inl hx))
    have hle : order.length ≤ ids.length := (List.subperm_of_subset hond hsub).length_le
    omega
  | succ fuel ih =>
    intro queue order indeg hinv hbound
    cases queue with
    | nil =>
      refine ⟨order, rfl, ?_, ?_, ?_, ?_⟩
      · intro k hk hdeps
        have h2 := (hinv.2.2.2.2.1 k hk).mpr hdeps
        simpa using h2
      · simpa using hinv.2.1
      · intro x hx
        exact hinv.2.2.1 x (by simpa using hx)
      · exact hinv.2.2.2.2.2
    | cons current rest =>
      have hstep := kahn_step g ids hg current rest order indeg hinv
      have hbound' : ids.length < fuel + (order ++ [current]).length := by
        rw [List.length_append, List.length_singleton]
        omega
      obtain ⟨fo, hfo, hrest⟩ := ih (rest ++ (processDecrements g indeg current).2)
        (order ++ [current]) (processDecrements g indeg current).1 hstep hbound'
      exact ⟨fo, hfo, hrest⟩

theorem complete_of_closed (edges : List Edge) (ids fo : List String)
    (hdom : ∀ e ∈ edges, e.source ∈ ids)
    (hacyc : Acyclic edges)
    (hclosed : ∀ k ∈ ids, (∀ s, depRel edges s k → s ∈ fo) → k ∈ fo) :
    ∀ k ∈ ids, k ∈ fo := by
  have hdom' : ∀ s t, depRel edges s t → s ∈ ids := by
    rintro s t ⟨e, he, hs, _⟩
    exact hs ▸ hdom e he
  suffices hall : ∀ a : {x // x ∈ ids}, a.1 ∈ fo by
    intro k hk
    exact hall ⟨k, hk⟩
  have hr : ∀ a b : {x // x ∈ ids},
      Relation.TransGen (fun a b : {x // x ∈ ids} => depRel edges a.1 b.1) a b →
      Relation.TransGen (depRel edges) a.1 b.1 :=
    fun a b h => Relation.TransGen.lift Subtype.val (fun _ _ hxy => hxy) h
  haveI htr : IsTrans {x // x ∈ ids}
      (Relation.TransGen (fun a b : {x // x ∈ ids} => depRel edges a.1 b.1)) :=
    ⟨fun _ _ _ h1 h2 => h1.trans h2⟩
  haveI hir : IsIrrefl {x // x ∈ ids}
      (Relation.TransGen (fun a b : {x // x ∈ ids} => depRel edges a.1 b.1)) :=
    ⟨fun a h => hacyc a.1 (hr a a h)⟩
  have hwf' : WellFounded
      (Relation.TransGen (fun a b : {x // x ∈ ids} => depRel edges a.1 b.1)) :=
    Finite.wellFounded_of_trans_of_irrefl _
  have hwf : WellFounded (fun a b : {x // x ∈ ids} => depRel edges a.1 b.1) :=
    Subrelation.wf
      (r := Relation.TransGen (fun a b : {x // x ∈ ids} => depRel edges a.1 b.1))
      (fun {x y} h => Relation.TransGen.single h) hwf'
  intro a
  induction a using WellFounded.induction hwf with
  | _ a ihd =>
    exact hclosed a.1 a.2
      (fun s hs => ihd ⟨s, hdom' s a.1 hs⟩ hs)

theorem acyclic_of_rank (edges : List Edge) (f : String → Nat)
    (h : ∀ s t, depRel edges s t → f s < f t) : Acyclic edges := by
  intro v hv
  have key : ∀ a b, Relation.TransGen (depRel edges) a b → f a < f b := by
    intro a b hab
    induction hab with
    | single h1 => exact h _ _ h1
    | tail _ h2 ihd => exact lt_trans ihd (h _ _ h2)
  exact absurd (key v v hv) (lt_irrefl _)

theorem kahn_init (g : Graph) (nodes : List Node)
    (hkeys : g.map Prod.fst = nodes.map Node.id)
    (hnodup : (nodes.map Node.id).Nodup) :
    KInv g (nodes.map Node.id) [] (initialQueue (buildInDegree g nodes))
      (buildInDegree g nodes) := by
  obtain ⟨hik, hiv⟩ := buildInDegree_spec g nodes hkeys hnodup
  have hiknd : ((buildInDegree g nodes).map Prod.fst).Nodup := hik ▸ hnodup
  have hqsub : List.Sublist (initialQueue (buildInDegree g nodes))
      ((buildInDegree g nodes).map Prod.fst) := by
    rw [initialQueue]
    exact (List.filter_sublist (buildInDegree g nodes)).map Prod.fst
  refine ⟨hik, ?_, ?_, ?_, ?_, ?_⟩
  · rw [List.nil_append]
    exact hiknd.sublist hqsub
  · intro x hx
    rw [List.nil_append] at hx
    rw [← hik]
    exact hqsub.subset hx
  · intro k hk
    have hfe : (depsOf g k).filter (fun s => decide (s ∉ ([] : List String)))
        = depsOf g k := by
      apply List.filter_eq_self.mpr
      intro a _
      simp
    rw [hfe]
    exact hiv k hk
  · intro k hk
    rw [List.nil_append]
    constructor
    · intro hq s hs
      exfalso
      simp only [initialQueue, List.mem_map, List.mem_filter] at hq
      obtain ⟨e, ⟨he, hz⟩, hek⟩ := hq
      have hz2 : e.2 = 0 := by simpa using hz
      have hlk : alookup (buildInDegree g nodes) k = some e.2 := by
        rw [← hek]
        exact alookup_of_mem_nodup hiknd (show (e.1, e.2) ∈ _ from he)
      rw [hiv k hk] at hlk
      have hlen0 : ((depsOf g k).length : Int) = 0 := by
        rw [Option.some.inj hlk, hz2]
      have : depsOf g k = [] := by
        rw [← List.length_eq_zero]
        exact_mod_cast hlen0
      rw [this] at hs
      simp at hs
    · intro hall
      have hdeps : depsOf g k = [] :=
        List.eq_nil_iff_forall_not_mem.mpr (fun s hs => by simpa using hall s hs)
      have hlk : alookup (buildInDegree g nodes) k = some 0 := by
        rw [hiv k hk, hdeps]
        rfl
      simp only [initialQueue, List.mem_map, List.mem_filter]
      exact ⟨(k, 0), ⟨alookup_mem hlk, by simp⟩, rfl⟩
  · intro k hk
    simp at hk

/-- C2: for every dependency graph built by _build_execution_graph from a
node list (with distinct ids) and an edge list whose endpoints all reference
listed nodes, if the edge relation is acyclic then
_calculate_execution_order returns an order containing every node id exactly
once (it is duplicate-free and its members are exactly the node ids) in which
every edge's source strictly precedes its target; and whenever the
Kahn loop's order fails to cover every node (residual cycle), the function
raises ValueError instead of returning — equivalently, every returned order
has exactly the node-list length. -/
theorem c2_topological_order_correct :
    (∀ (nodes : List Node) (edges : List Edge),
       (nodes.map Node.id).Nodup →
       (∀ e ∈ edges, e.source ∈ nodes.map Node.id ∧ e.target ∈ nodes.map Node.id) →
       Acyclic edges →
       ∃ order, calculateExecutionOrder (buildExecutionGraph nodes edges) nodes
           = Except.ok order
         ∧ order.Nodup
         ∧ (∀ x, x ∈ order ↔ x ∈ nodes.map Node.id)
         ∧ (∀ e ∈ edges, order.indexOf e.source < order.indexOf e.target))
  ∧ (∀ (g : Graph) (nodes : List Node) (order : List String),
       calculateExecutionOrder g nodes = Except.ok order →
       order.length = nodes.length) := by
  constructor
  · intro nodes edges hnodup hend hacyc
    obtain ⟨hgwf, hbridge⟩ := buildExecutionGraph_GWF nodes edges hnodup hend hacyc
    obtain ⟨hik, _⟩ := buildInDegree_spec (buildExecutionGraph nodes edges) nodes
      hgwf.1 hnodup
    have hinit := kahn_init (buildExecutionGraph nodes edges) nodes hgwf.1 hnodup
    have hlen : (buildInDegree (buildExecutionGraph nodes edges) nodes).length
        = (nodes.map Node.id).length := by
      rw [← hik, List.length_map]
    have hbound : (nodes.map Node.id).length <
        ((buildInDegree (buildExecutionGraph nodes edges) nodes).length + 1)
          + ([] : List String).length := by
      simp [hlen]
    obtain ⟨fo, hfo, hclosed, hfond, hfosub, hfoprec⟩ :=
      kahn_run (buildExecutionGraph nodes edges) (nodes.map Node.id) hgwf
        ((buildInDegree (buildExecutionGraph nodes edges) nodes).length + 1)
        (initialQueue (buildInDegree (buildExecutionGraph nodes edges) nodes)) []
        (buildInDegree (buildExecutionGraph nodes edges) nodes) hinit hbound
    have hcompl : ∀ k ∈ nodes.map Node.id, k ∈ fo :=
      complete_of_closed edges (nodes.map Node.id) fo (fun e he => (hend e he).1)
        hacyc
        (by
          intro k hk hdr
          exact hclosed k hk (fun s hs => hdr s ((hbridge k hk s).mp hs)))
    have hmemiff : ∀ x, x ∈ fo ↔ x ∈ nodes.map Node.id :=
      fun x => ⟨hfosub x, hcompl x⟩
    have hlenfo : fo.length = nodes.length := by
      have h1 : fo.length ≤ (nodes.map Node.id).length :=
        (List.subperm_of_subset hfond (fun x hx => hfosub x hx)).length_le
      have h2 : (nodes.map Node.id).length ≤ fo.length :=
        (List.subperm_of_subset hnodup (fun x hx => hcompl x hx)).length_le
      rw [List.length_map] at h1 h2
      omega
    refine ⟨fo, ?_, hfond, hmemiff, ?_⟩
    · simp only [calculateExecutionOrder]
      rw [hfo]
      simp [hlenfo]
    · intro e he
      have htid : e.target ∈ nodes.map Node.id := (hend e he).2
      have hsdep : e.source ∈ depsOf (buildExecutionGraph nodes edges) e.target :=
        (hbridge e.target htid e.source).mpr ⟨e, he, rfl, rfl⟩
      exact (hfoprec e.target (hcompl e.target htid) e.source hsdep).2
  · intro g nodes order h
    simp only [calculateExecutionOrder] at h
    split at h
    · exact absurd h (by simp)
    · split at h
      · exact absurd h (by simp)
      · next hcond =>
        rw [← Except.ok.inj h]
        exact not_ne_iff.mp hcond

/-- c2_topological_order_witness instantiates the C2 theorem on the concrete
three-node chain A before B before C: the hypotheses (distinct ids, endpoints
listed, acyclicity via a strictly increasing rank) hold, the computed order
satisfies the stated properties, and a concretely returned order has
full length. -/
theorem c2_topological_order_witness :
    (c2nodes.map Node.id).Nodup
  ∧ Acyclic c2edges
  ∧ (∃ order, calculateExecutionOrder (buildExecutionGraph c2nodes c2edges)
        c2nodes = Except.ok order
      ∧ order.Nodup
      ∧ (∀ x, x ∈ order ↔ x ∈ c2nodes.map Node.id)
      ∧ (∀ e ∈ c2edges, order.indexOf e.source < order.indexOf e.target))
  ∧ calculateExecutionOrder (buildExecutionGraph c2nodes c2edges) c2nodes
      = Except.ok ["A", "B", "C"]
  ∧ (["A", "B", "C"] : List String).length = c2nodes.length := by
  have hac : Acyclic c2edges := by
    apply acyclic_of_rank c2edges c2rank
    rintro s t ⟨e, he, hs, ht⟩
    simp only [c2edges, List.mem_cons, List.not_mem_nil, or_false] at he
    rcases he with rfl | rfl
    · rw [← hs, ← ht]
      decide
    · rw [← hs, ← ht]
      decide
  refine ⟨by decide, hac, ?_, by rfl, ?_⟩
  · exact c2_topological_order_correct.1 c2nodes c2edges (by decide) (by decide) hac
  · exact c2_topological_order_correct.2 (buildExecutionGraph c2nodes c2edges)
      c2nodes ["A", "B", "C"] (by rfl)

theorem hcFold_true (g : Graph) (fuel : Nat) (rs : List String) :
    ∀ (ds : List String) (vis : List String),
      ds.foldl (fun acc d => if acc.1 then acc
        else hcNode g fuel d acc.2 rs) (true, vis) = (true, vis) := by
  intro ds
  induction ds with
  | nil => intro vis; rfl
  | cons d rest ihd =>
    intro vis
    rw [List.foldl_cons, if_pos rfl]
    exact ihd vis

theorem hcNode_false_spec (g : Graph) :
    ∀ (fuel : Nat) (node : String) (visited recStack visited' : List String),
      hcNode g fuel node visited recStack = (false, visited') →
      ((∀ x ∈ visited, x ∈ visited') ∧ node ∈ visited'
      ∧ ((∀ v ∈ visited, v ∉ recStack → Acc (childRel g) v) →
          ∀ v ∈ visited', v ∉ recStack → Acc (childRel g) v)) := by
  intro fuel
  induction fuel with
  | zero =>
    intro node visited recStack visited' h
    simp [hcNode] at h
  | succ fuel ih =>
    intro node visited recStack visited' h
    rw [hcNode] at h
    by_cases hrs : node ∈ recStack
    · rw [if_pos hrs] at h
      simp at h
    · rw [if_neg hrs] at h
      by_cases hv : node ∈ visited
      · rw [if_pos hv] at h
        have h2 : visited = visited' := congrArg Prod.snd h
        subst h2
        exact ⟨fun x hx => hx, hv, fun hs => hs⟩
      · rw [if_neg hv] at h
        have aux : ∀ (ds : List String) (vis0 visF : List String),
            ds.foldl (fun acc d => if acc.1 then acc
              else hcNode g fuel d acc.2 (node :: recStack)) (false, vis0)
              = (false, visF) →
            ((∀ x ∈ vis0, x ∈ visF)
            ∧ (∀ d ∈ ds, d ∈ visF ∧ d ∉ node :: recStack)
            ∧ ((∀ v ∈ vis0, v ∉ node :: recStack → Acc (childRel g) v) →
                ∀ v ∈ visF, v ∉ node :: recStack → Acc (childRel g) v)) := by
          intro ds
          induction ds with
          | nil =>
            intro vis0 visF hf
            simp only [List.foldl_nil] at hf
            have h2 : vis0 = visF := congrArg Prod.snd hf
            subst h2
            exact ⟨fun x hx => hx, by simp, fun hs => hs⟩
          | cons d rest ihd =>
            intro vis0 visF hf
            rw [List.foldl_cons, if_neg (by simp)] at hf
            cases hin : hcNode g fuel d vis0 (node :: recStack) with
            | mk b vis1 =>
              rw [hin] at hf
              cases b with
              | true =>
                rw [hcFold_true g fuel (node :: recStack) rest vis1] at hf
                simp at hf
              | false =>
                obtain ⟨s1, s2, s3⟩ := ih d vis0 (node :: recStack) vis1 hin
                obtain ⟨t1, t2, t3⟩ := ihd vis1 visF hf
                have hdn : d ∉ node :: recStack := by
                  intro hd
                  cases fuel with
                  | zero => simp [hcNode] at hin
                  | succ f2 =>
                    rw [hcNode, if_pos hd] at hin
                    simp at hin
                refine ⟨fun x hx => t1 x (s1 x hx), ?_, ?_⟩
                · intro d' hd'
                  rcases List.mem_cons.mp hd' with rfl | hd2
                  · exact ⟨t1 d' s2, hdn⟩
                  · exact t2 d' hd2
                · intro hs
                  exact t3 (s3 hs)
        obtain ⟨a1, a2, a3⟩ := aux (depsOf g node) (visited ++ [node]) visited' h
        have hnodein : node ∈ visited' := a1 node (by simp)
        refine ⟨fun x hx => a1 x (by simp [hx]), hnodein, ?_⟩
        intro hs v hvmem hvnr
        have hs0 : ∀ w ∈ visited ++ [node], w ∉ node :: recStack →
            Acc (childRel g) w := by
          intro w hw hwnr
          simp only [List.mem_cons, not_or] at hwnr
          rcases List.mem_append.mp hw with h1 | h1
          · exact hs w h1 hwnr.2
          · exact absurd (by simpa using h1) hwnr.1
        have hsF := a3 hs0
        have haccnode : Acc (childRel g) node := by
          constructor
          intro d hd
          obtain ⟨hd1, hd2⟩ := a2 d hd
          exact hsF d hd1 hd2
        by_cases hvn : v = node
        · rw [hvn]
          exact haccnode
        · apply hsF v hvmem
          simp only [List.mem_cons, not_or]
          exact ⟨hvn, hvnr⟩

theorem validateLoop_sound (g : Graph) (fuel : Nat) :
    ∀ (roots visited : List String),
      validateLoop g fuel roots visited = true →
      (∀ v ∈ visited, Acc (childRel g) v) →
      ∀ nid ∈ roots, Acc (childRel g) nid := by
  intro roots
  induction roots with
  | nil =>
    intro visited _ _ nid hnid
    simp at hnid
  | cons n rest ih =>
    intro visited hval hsafe nid hnid
    rw [validateLoop] at hval
    by_cases hv : n ∈ visited
    · rw [if_pos hv] at hval
      rcases List.mem_cons.mp hnid with rfl | h2
      · exact hsafe nid hv
      · exact ih visited hval hsafe nid h2
    · rw [if_neg hv] at hval
      cases hc : hcNode g fuel n visited [] with
      | mk b vis2 =>
        rw [hc] at hval
        cases b with
        | true => exact absurd (show false = true from hval) (by simp)
        | false =>
          have hval2 : validateLoop g fuel rest vis2 = true := hval
          obtain ⟨_, hn2, hsafe2⟩ := hcNode_false_spec g fuel n visited [] vis2 hc
          have hsafeF : ∀ v ∈ vis2, Acc (childRel g) v := by
            intro v hv2
            exact hsafe2 (fun w hw _ => hsafe w hw) v hv2 (by simp)
          rcases List.mem_cons.mp hnid with rfl | h2
          · exact hsafeF nid hn2
          · exact ih vis2 hval2 hsafeF nid h2

theorem validate_sound (g : Graph) (nodes : List Node)
    (h : validateExecutionGraph g nodes = true) :
    ∀ nid ∈ nodes.map Node.id, Acc (childRel g) nid := by
  rw [validateExecutionGraph] at h
  exact validateLoop_sound g (validateFuel g nodes) (nodes.map Node.id) [] h
    (by simp)

theorem acc_no_transGen_self {r : String → String → Prop} {v : String}
    (h : Acc r v) : ¬ Relation.TransGen r v v := by
  have h2 : Acc (Relation.TransGen r) v := h.transGen
  clear h
  induction h2 with
  | intro x _ ih => exact fun hxx => ih x hxx hxx

/-- C3 (amended): for a node/edge set with distinct node ids whose edge
endpoints all reference listed nodes, if the dependency relation has a cycle
then _validate_execution_graph rejects the graph, execute_flow transitions
the execution record directly to failed with the structural error message
"Invalid flow structure", creates no component rows and emits no
notifications whatsoever — no node ever transitions to running and no
component executor is invoked.  A cycle confined to ids that appear only as
edge endpoints, never in the node list, escapes the validation DFS (which
roots only at listed ids) — see the counterexample. -/
theorem c3_cycle_rejected_for_listed_nodes (nodes : List Node)
    (edges : List Edge) (execf : String → Dict → ExecOutcome)
    (hnodup : (nodes.map Node.id).Nodup)
    (hend : ∀ e ∈ edges, e.source ∈ nodes.map Node.id
      ∧ e.target ∈ nodes.map Node.id)
    (v : String) (hcyc : Relation.TransGen (depRel edges) v v) :
    validateExecutionGraph (buildExecutionGraph nodes edges) nodes = false
    ∧ executeFlow nodes edges execf =
        updateExecutionStatus { record := { total_components := nodes.length } }
          "failed" (some "Invalid flow structure")
    ∧ (executeFlow nodes edges execf).record.status = "failed"
    ∧ (executeFlow nodes edges execf).record.error_message
        = some "Invalid flow structure"
    ∧ (executeFlow nodes edges execf).comps = []
    ∧ (executeFlow nodes edges execf).events = [] := by
  obtain ⟨hkeys, hchar⟩ := buildExecutionGraph_char nodes edges hnodup
    (fun e he => (hend e he).2)
  have hbridge : ∀ k ∈ nodes.map Node.id, ∀ s,
      (s ∈ depsOf (buildExecutionGraph nodes edges) k ↔ depRel edges s k) := by
    intro k hk s
    obtain ⟨deps, h1, _, h3⟩ := hchar k hk
    rw [depsOf, h1, Option.getD_some, h3 s, depRel]
    constructor
    · rintro ⟨e, he, ht, hs⟩
      exact ⟨e, he, hs, ht⟩
    · rintro ⟨e, he, hs, ht⟩
      exact ⟨e, he, ht, hs⟩
  have htarget : ∀ s t, depRel edges s t → t ∈ nodes.map Node.id := by
    rintro s t ⟨e, he, _, ht⟩
    exact ht ▸ (hend e he).2
  have hvids : v ∈ nodes.map Node.id := by
    obtain ⟨c, _, hcb⟩ := Relation.TransGen.tail'_iff.mp hcyc
    exact htarget c v hcb
  have hlift : ∀ a b, Relation.TransGen (depRel edges) a b →
      Relation.TransGen (childRel (buildExecutionGraph nodes edges)) a b := by
    intro a b hab
    induction hab with
    | single h1 =>
      exact Relation.TransGen.single ((hbridge _ (htarget _ _ h1) _).mpr h1)
    | tail _ h2 ihl =>
      exact Relation.TransGen.tail ihl ((hbridge _ (htarget _ _ h2) _).mpr h2)
  have hval : validateExecutionGraph (buildExecutionGraph nodes edges) nodes
      = false := by
    rcases Bool.eq_false_or_eq_true
      (validateExecutionGraph (buildExecutionGraph nodes edges) nodes) with h | h
    · exfalso
      exact acc_no_transGen_self
        (validate_sound (buildExecutionGraph nodes edges) nodes h v hvids)
        (hlift v v hcyc)
    · exact h
  have hne : nodes.isEmpty = false := by
    cases nodes with
    | nil => simp at hvids
    | cons a l => rfl
  have hexec : executeFlow nodes edges execf =
      updateExecutionStatus { record := { total_components := nodes.length } }
        "failed" (some "Invalid flow structure") := by
    simp only [executeFlow]
    rw [if_neg (by simp [hne]), if_pos (by simp [hval])]
  refine ⟨hval, hexec, ?_, ?_, ?_, ?_⟩ <;> rw [hexec] <;> rfl

/-- c3_cycle_witness instantiates the C3 theorem on the two-listed-node cycle
A before B before A: validation rejects, the record fails with the structural
error, and no notification (in particular no componentStarted) is ever
emitted. -/
theorem c3_cycle_witness :
    Relation.TransGen (depRel c3edges) "A" "A"
  ∧ validateExecutionGraph (buildExecutionGraph c3nodes c3edges) c3nodes = false
  ∧ (executeFlow c3nodes c3edges
      (fun _ _ => ExecOutcome.result
        { success := true, output_data := Value.vnull })).record.status = "failed"
  ∧ (executeFlow c3nodes c3edges
      (fun _ _ => ExecOutcome.result
        { success := true, output_data := Value.vnull })).events = [] := by
  have step1 : depRel c3edges "A" "B" :=
    ⟨{ source := "A", target := "B" }, by simp [c3edges], rfl, rfl⟩
  have step2 : depRel c3edges "B" "A" :=
    ⟨{ source := "B", target := "A" }, by simp [c3edges], rfl, rfl⟩
  have hcyc : Relation.TransGen (depRel c3edges) "A" "A" :=
    Relation.TransGen.tail (Relation.TransGen.single step1) step2
  have h := c3_cycle_rejected_for_listed_nodes c3nodes c3edges
    (fun _ _ => ExecOutcome.result { success := true, output_data := Value.vnull })
    (by decide) (by decide) "A" hcyc
  exact ⟨hcyc, h.1, h.2.2.1, h.2.2.2.2.2⟩

/-- c3_counterexample refutes C3 as stated: the dependency graph of a flow
whose node list is just A but whose edges form the cycle B before C before B
does contain a cycle, yet validation accepts the graph, the run completes,
and node A starts and runs — the DFS only roots at listed node ids, so a
cycle among unlisted endpoint ids is never examined. -/
theorem c3_counterexample :
    Relation.TransGen (depRel c3badEdges) "B" "B"
  ∧ validateExecutionGraph (buildExecutionGraph c3badNodes c3badEdges) c3badNodes
      = true
  ∧ c3badRun.record.status = "completed"
  ∧ Event.componentStarted "A" ∈ c3badRun.events := by
  refine ⟨?_, by decide, by decide, by decide⟩
  have step1 : depRel c3badEdges "B" "C" :=
    ⟨{ source := "B", target := "C" }, by simp [c3badEdges], rfl, rfl⟩
  have step2 : depRel c3badEdges "C" "B" :=
    ⟨{ source := "C", target := "B" }, by simp [c3badEdges], rfl, rfl⟩
  exact Relation.TransGen.tail (Relation.TransGen.single step1) step2

end FlowStudio
